import Mathlib

/-!
Shallow embedding of the IoT network routing repository.

Conventions used throughout:
* Python floats are modelled as exact rationals (`ℚ`).
* The code compares `math.sqrt(dx*dx + dy*dy) <= r`.  Over the reals this holds
  iff `0 ≤ r ∧ dx*dx + dy*dy ≤ r*r`, so the embedding works with squared
  distances (`distSq`) and the decidable predicate `inRange`; stored edge
  weights (the code stores the Euclidean distance) are represented by their
  squares, a faithful encoding because squaring is a monotone bijection on the
  nonnegative reals.
* Python `dict`s are modelled as insertion-ordered association lists with
  unique keys (`upd` mirrors `d[k] = v`), and a missing-key access (KeyError)
  is modelled by `Option`/`none` results.
* Node objects compare equal by their `eui64` (the Python classes define
  `__eq__`/`__hash__` this way), so object references in neighbor lists are
  modelled by the `eui64` strings.
-/

namespace IoTNet

/-- The immutable attribute part of a node: `eui64`, position, range
(`iot_node.py` lines 23-26 / `core/node.py` graph node attributes). -/
structure NodeData where
  eui64 : String
  x : ℚ
  y : ℚ
  communication_range : ℚ
deriving DecidableEq, Repr

/-- Squared Euclidean distance, the square of `IoTNode.distance_to`. -/
def distSq (a b : NodeData) : ℚ :=
  (a.x - b.x) * (a.x - b.x) + (a.y - b.y) * (a.y - b.y)

/-- `sqrt s ≤ r` for `s ≥ 0`, expressed without square roots:
`0 ≤ r ∧ s ≤ r*r`. -/
def inRange (s r : ℚ) : Bool :=
  decide (0 ≤ r) && decide (s ≤ r * r)

/-- `IoTNode.can_communicate_with` (`iot_node.py` lines 40-42 and
`core/node.py` lines 115-117): the test uses only the calling node's own
`communication_range`. -/
def can_communicate_with (a b : NodeData) : Bool :=
  inRange (distSq a b) a.communication_range

/-- All ordered pairs `(l[i], l[j])` with `i < j`, in the order the nested
`for i ... for j in range(i+1, ...)` loops visit them. -/
def pairsOf {α : Type} : List α → List (α × α)
  | [] => []
  | x :: xs => (xs.map (fun y => (x, y))) ++ pairsOf xs

/-- Insertion-ordered dictionary update, `m[k] = v`. -/
def upd {β : Type} : List (String × β) → String → β → List (String × β)
  | [], k, v => [(k, v)]
  | p :: rest, k, v => if p.1 == k then (k, v) :: rest else p :: upd rest k v

end IoTNet

namespace IoTNet.Legacy

/-! ### The legacy representation (`iot_node.py`)

Node objects own mutable `neighbors` lists; a network is the ordered list of
its node objects.  Neighbor object references are modelled by `eui64`
strings (object equality is by `eui64`). -/

structure LNode extends IoTNet.NodeData where
  neighbors : List String
deriving DecidableEq, Repr

abbrev LNet := List LNode

def idsL (net : LNet) : List String := net.map (·.eui64)

def lookupL (net : LNet) (a : String) : Option LNode :=
  net.find? (fun n => n.eui64 == a)

/-- Current neighbor list of the node with identity `a` (empty when `a` is
not in the network; the claims below always assume closed networks, where
every referenced neighbor is a member). -/
def adjL (net : LNet) (a : String) : List String :=
  ((lookupL net a).map (·.neighbors)).getD []

/-- `for node in self.nodes: node.neighbors.clear()`. -/
def clearNeighbors (net : LNet) : LNet :=
  net.map (fun n => { n with neighbors := [] })

/-- `if b not in node_a.neighbors: node_a.neighbors.append(b)`. -/
def appendGuarded (net : LNet) (a b : String) : LNet :=
  net.map (fun n =>
    if n.eui64 == a && !(n.neighbors.contains b) then
      { n with neighbors := n.neighbors ++ [b] }
    else n)

/-- `node_a.neighbors.append(b)` (unguarded). -/
def appendRaw (net : LNet) (a b : String) : LNet :=
  net.map (fun n =>
    if n.eui64 == a then { n with neighbors := n.neighbors ++ [b] } else n)

/-- `node_a.neighbors.remove(b)` (removes the first occurrence). -/
def eraseNeighbor (net : LNet) (a b : String) : LNet :=
  net.map (fun n =>
    if n.eui64 == a then { n with neighbors := n.neighbors.erase b } else n)

/-- One iteration of the pair loop in `IoTNetwork.update_all_connections`
(`iot_node.py` lines 167-178): the legacy file combines ranges with `min`
(the conservative policy). -/
def connectPairMin (net : LNet) (p : LNode × LNode) : LNet :=
  if IoTNet.inRange (IoTNet.distSq p.1.toNodeData p.2.toNodeData)
      (min p.1.communication_range p.2.communication_range) then
    appendGuarded (appendGuarded net p.1.eui64 p.2.eui64) p.2.eui64 p.1.eui64
  else net

/-- `IoTNetwork.update_all_connections` (`iot_node.py` lines 160-178). -/
def update_all_connections (net : LNet) : LNet :=
  (pairsOf (clearNeighbors net)).foldl connectPairMin (clearNeighbors net)

/-- `IoTNetwork.validate_bidirectional_connections` (`iot_node.py`
lines 184-190).  A dangling neighbor reference cannot be represented in the
id-based model and is mapped to `false`; the theorems only use closed
networks, where the case does not arise. -/
def validate_bidirectional_connections (net : LNet) : Bool :=
  net.all (fun n => n.neighbors.all (fun y =>
    match lookupL net y with
    | some m => m.neighbors.contains n.eui64
    | none => false))

/-- Body of the inner loop of `IoTNetwork.fix_bidirectional_connections`
(`iot_node.py` lines 196-205), for the node `xid` and the snapshot element
`y`. -/
def fixStep (xid : String) (st : LNet × ℕ) (y : String) : LNet × ℕ :=
  if (adjL st.1 y).contains xid then st
  else
    match lookupL st.1 xid, lookupL st.1 y with
    | some xo, some yo =>
      if IoTNet.can_communicate_with xo.toNodeData yo.toNodeData then
        (appendRaw st.1 y xid, st.2 + 1)
      else
        (eraseNeighbor st.1 xid y, st.2 + 1)
    | _, _ => st

/-- One outer-loop iteration: iterate over a snapshot
(`list(node.neighbors)`) of `xid`'s neighbors. -/
def fixNode (st : LNet × ℕ) (xid : String) : LNet × ℕ :=
  (adjL st.1 xid).foldl (fixStep xid) st

/-- `IoTNetwork.fix_bidirectional_connections` (`iot_node.py`
lines 192-206); returns the updated network and the fix count. -/
def fix_bidirectional_connections (net : LNet) : LNet × ℕ :=
  (idsL net).foldl fixNode (net, 0)

/-- `IoTNode.add_neighbor` (`iot_node.py` lines 44-68) acting on the nodes
`aid` (self) and `bid` inside `net`; returns the updated network and the
`added` flag. -/
def add_neighbor (net : LNet) (aid bid : String) : LNet × Bool :=
  match lookupL net aid, lookupL net bid with
  | some a, some b =>
    if bid == aid then (net, false)
    else if !(IoTNet.can_communicate_with a.toNodeData b.toNodeData) then (net, false)
    else
      let added1 := !((adjL net aid).contains bid)
      let net1 := if added1 then appendRaw net aid bid else net
      let added2 := !((adjL net1 bid).contains aid)
      let net2 := if added2 then appendRaw net1 bid aid else net1
      (net2, added1 || added2)
  | _, _ => (net, false)

end IoTNet.Legacy

namespace IoTNet.G

/-! ### The current representation
(`core/network.py` + `core/node.py`)

The network state is a NetworkX undirected graph: node attributes plus an
edge collection.  `IoTNode` objects in this revision are views over the
graph, so their `neighbors` property is always derived from the edge set. -/

structure MEdge where
  u : String
  v : String
  w : ℚ
deriving DecidableEq, Repr

structure Graph where
  nodeList : List IoTNet.NodeData
  edges : List MEdge
deriving DecidableEq, Repr

def idsG (g : Graph) : List String := g.nodeList.map (·.eui64)

def lookupG (g : Graph) (a : String) : Option IoTNet.NodeData :=
  g.nodeList.find? (fun n => n.eui64 == a)

/-- `graph.has_edge(a, b)` (undirected). -/
def hasEdge (g : Graph) (a b : String) : Bool :=
  g.edges.any (fun e => (e.u == a && e.v == b) || (e.u == b && e.v == a))

/-- `graph.neighbors(a)`: the other endpoint of every incident edge, in edge
insertion order (NetworkX adjacency order). -/
def neighborsOf (g : Graph) (a : String) : List String :=
  g.edges.filterMap (fun e =>
    if e.u == a then some e.v else if e.v == a then some e.u else none)

/-- Stored weight of the edge between `a` and `b`, if present (weights are
modelled by the squared Euclidean distance, see the file header). -/
def edgeWeight (g : Graph) (a b : String) : Option ℚ :=
  (g.edges.find? (fun e => (e.u == a && e.v == b) || (e.u == b && e.v == a))).map (·.w)

def addEdge (g : Graph) (a b : String) (w : ℚ) : Graph :=
  { g with edges := g.edges ++ [⟨a, b, w⟩] }

/-- `graph.remove_edge(a, b)`. -/
def removeEdge (g : Graph) (a b : String) : Graph :=
  { g with edges := g.edges.filter (fun e =>
      !((e.u == a && e.v == b) || (e.u == b && e.v == a))) }

/-- `IoTNetwork.add_node` (`core/network.py` lines 30-41). -/
def add_node (g : Graph) (n : IoTNet.NodeData) : Graph × Bool :=
  if (idsG g).contains n.eui64 then (g, false)
  else ({ g with nodeList := g.nodeList ++ [n] }, true)

/-- `IoTNetwork.update_all_connections` (`core/network.py` lines 60-94):
clear all edges, then for every ordered pair `i < j` add an edge iff
`distance <= max(range_i, range_j)` (the permissive policy), with the
distance as weight.  The neighbor-list bookkeeping in the source operates on
freshly computed view lists and does not change the graph. -/
def update_all_connections (g : Graph) : Graph :=
  (pairsOf g.nodeList).foldl
    (fun acc p =>
      if IoTNet.inRange (IoTNet.distSq p.1 p.2)
          (max p.1.communication_range p.2.communication_range) then
        addEdge acc p.1.eui64 p.2.eui64 (IoTNet.distSq p.1 p.2)
      else acc)
    { g with edges := [] }

/-- `set(l1) == set(l2)` on identity lists. -/
def sameSet (l1 l2 : List String) : Bool :=
  l1.all (fun a => l2.contains a) && l2.all (fun a => l1.contains a)

/-- `IoTNetwork.validate_bidirectional_connections` (`core/network.py`
lines 100-116).  In this revision `node.neighbors` is computed from the
graph, so both the symmetry check and the graph/object consistency check
compare graph-derived lists. -/
def validate_bidirectional_connections (g : Graph) : Bool :=
  g.nodeList.all (fun n => (neighborsOf g n.eui64).all (fun y =>
    (neighborsOf g y).contains n.eui64))
  && g.nodeList.all (fun n =>
    sameSet (neighborsOf g n.eui64) (neighborsOf g n.eui64))

/-- Body of the second loop of `IoTNetwork.fix_bidirectional_connections`
(`core/network.py` lines 142-159) for node `nid` (attributes `nd`) and the
snapshot element `y`.  `neighbor.neighbors.append(node)` mutates a freshly
computed view list and therefore has no effect on the graph state; the graph
effects are the guarded `add_edge` and the `remove_edge`. -/
def fixStepG (nid : String) (nd : IoTNet.NodeData) (acc : Graph × ℕ) (y : String) :
    Graph × ℕ :=
  if (neighborsOf acc.1 y).contains nid then acc
  else
    match lookupG acc.1 y with
    | some yo =>
      if IoTNet.can_communicate_with nd yo then
        (if hasEdge acc.1 nid y then acc.1
         else addEdge acc.1 nid y (IoTNet.distSq nd yo), acc.2 + 1)
      else
        (removeEdge acc.1 nid y, acc.2 + 1)
    | none => acc

/-- `IoTNetwork.fix_bidirectional_connections` (`core/network.py`
lines 118-161).  The first pass of the source syncs the node objects with
the graph; node objects are views over the graph in this revision, so the
two neighbor sets it compares are the same list and the pass performs no
action.  The second pass is embedded literally. -/
def fix_bidirectional_connections (g : Graph) : Graph × ℕ :=
  g.nodeList.foldl
    (fun acc n => (neighborsOf acc.1 n.eui64).foldl (fixStepG n.eui64 n) acc)
    (g, 0)

/-- One record of the persisted JSON format (`IoTNode.to_dict`). -/
structure SavedNode where
  eui64 : String
  x : ℚ
  y : ℚ
  communication_range : ℚ
  neighbors : List String
deriving DecidableEq, Repr

/-- `IoTNetwork.to_dict`'s node list (`core/network.py` lines 167-173):
each node's record carries its current graph adjacency. -/
def to_dict (g : Graph) : List SavedNode :=
  g.nodeList.map (fun n =>
    ⟨n.eui64, n.x, n.y, n.communication_range, neighborsOf g n.eui64⟩)

/-- The call `IoTNode.from_dict(node_data)` at `core/network.py` line 190.
The classmethod it invokes is `from_dict(cls, data, graph)`
(`core/node.py` line 176) with a REQUIRED `graph` parameter that the call
site does not supply, so every call raises
`TypeError: from_dict() missing 1 required positional argument: 'graph'`
before constructing anything; the uncaught exception is modelled by
`none`. -/
def fromDictCall (_ : SavedNode) : Option IoTNet.NodeData := none

/-- First pass of `IoTNetwork.load_from_file` (`core/network.py`
lines 188-191): `for node_data in data['nodes']:` create the node with
`IoTNode.from_dict(node_data)` and add it.  The `TypeError` raised by
`fromDictCall` propagates out of the loop, so the pass completes exactly
when the record list is empty. -/
def loadPass1 (ds : List SavedNode) : Option Graph :=
  ds.foldlM (fun g d => (fromDictCall d).map (fun n => (add_node g n).1))
    ⟨[], []⟩

/-- One neighbor reference of the second pass (`core/network.py`
lines 194-203): if the neighbor exists and the edge is not present yet, add
it with the recomputed distance as weight.  The trailing
`node.add_neighbor(neighbor)` call in the source is a no-op: the edge it
would add was just added, so the method returns `False` without mutation. -/
def loadEdgeStep (a : String) (g : Graph) (bid : String) : Graph :=
  match lookupG g a, lookupG g bid with
  | some na, some nb =>
    if hasEdge g a bid then g else addEdge g a bid (IoTNet.distSq na nb)
  | _, _ => g

/-- `IoTNetwork.load_from_file` (`core/network.py` lines 180-205), acting on
the parsed record list: the node-creation pass, then the edge pass over the
surviving state.  `none` is the uncaught `TypeError` of the first pass,
which fires on the first record of every nonempty file. -/
def load_from_dict (ds : List SavedNode) : Option Graph :=
  (loadPass1 ds).map (fun g0 =>
    ds.foldl (fun g d => d.neighbors.foldl (loadEdgeStep d.eui64) g) g0)

end IoTNet.G

namespace IoTNet.PF

/-! ### The path engine (`utils/pathfinder.py`)

`PathFinder` reads the persisted JSON: what matters to it is the list of
node records, each carrying `eui64` and its raw `neighbors` list.  The
`distance` dictionary holds ints or `float('inf')`, modelled as
`Option ℕ` with `none` playing the role of infinity; `previous_nodes`
holds node ids or `None`.  `heapq` stores `(distance, node_id)` tuples and
always pops the unique lexicographic minimum, modelled by `popMin`. -/

structure PFNode where
  eui64 : String
  neighbors : List String
deriving DecidableEq, Repr

abbrev Net := List PFNode

abbrev DistMap := List (String × Option ℕ)

abbrev PrevMap := List (String × Option String)

abbrev Queue := List (ℕ × String)

def idsP (net : Net) : List String := net.map (·.eui64)

/-- The neighbor list used by the `for node in ...: if node['eui64'] ==
current: ...: break` scan: the first record with the given id, or no
neighbors when no record matches. -/
def adjP (net : Net) (u : String) : List String :=
  ((net.find? (fun n => n.eui64 == u)).map (·.neighbors)).getD []

/-- `path < self.distance[nb]` where `path` is a plain int and the stored
value may be `float('inf')`. -/
def ltD (k : ℕ) (dv : Option ℕ) : Bool :=
  match dv with
  | none => true
  | some m => decide (k < m)

/-- `current_distance > self.distance[current]`. -/
def gtD (k : ℕ) (dv : Option ℕ) : Bool :=
  match dv with
  | none => false
  | some m => decide (m < k)

/-- Python tuple order on heap entries: `(d1,s1) < (d2,s2)`. -/
def entryLT (e f : ℕ × String) : Bool :=
  decide (e.1 < f.1) || (e.1 == f.1 && decide (e.2 < f.2))

/-- `heapq.heappop`: remove and return the smallest entry.  The fold keeps
the leftmost minimal entry; the loop never pushes duplicate tuples, so the
minimum is unique and this is exactly the heap's behavior. -/
def popMin : Queue → Option ((ℕ × String) × Queue)
  | [] => none
  | e :: rest =>
    let m := rest.foldl (fun m f => if entryLT f m then f else m) e
    some (m, (e :: rest).erase m)

/-- Relaxation of a single neighbor `nb` of the popped entry `(d, u)`
(`pathfinder.py` lines 47-52).  A `neighbor_id` that is not a key of the
distance dictionary raises `KeyError`, modelled by `none`. -/
def relaxStep (u : String) (d : ℕ) (st : DistMap × PrevMap × Queue) (nb : String) :
    Option (DistMap × PrevMap × Queue) :=
  match st.1.lookup nb with
  | none => none
  | some dv =>
    if ltD (d + 1) dv then
      some (upd st.1 nb (some (d + 1)), upd st.2.1 nb (some u),
        st.2.2 ++ [(d + 1, nb)])
    else some st

/-- The `while priority_queue:` loop of `calculate_paths_from_source`
(`pathfinder.py` lines 37-53), with explicit fuel.  The fuel argument only
serves to present the loop as a Lean function; `loop_total` below proves
that with `fuelFor net` the queue always empties before the fuel does, so
`none` means a Python `KeyError`. -/
def loop (net : Net) : ℕ → DistMap × PrevMap × Queue → Option (DistMap × PrevMap)
  | 0, _ => none
  | fuel + 1, (dist, prev, q) =>
    match popMin q with
    | none => some (dist, prev)
    | some ((d, u), q') =>
      match dist.lookup u with
      | none => none
      | some du =>
        if gtD d du then loop net fuel (dist, prev, q')
        else
          match (adjP net u).foldlM (relaxStep u d) (dist, prev, q') with
          | none => none
          | some st' => loop net fuel st'

/-- Fuel that always outlasts the loop: one initial entry plus at most one
push per neighbor reference (each node is expanded at most once). -/
def fuelFor (net : Net) : ℕ :=
  2 + (net.map (fun n => n.neighbors.length)).sum

/-- The reset loop at the top of `calculate_paths_from_source`
(`pathfinder.py` lines 28-31): a fresh dictionary with one `inf` entry per
node record. -/
def initDist (net : Net) : DistMap :=
  net.foldl (fun m n => upd m n.eui64 none) []

def initPrev (net : Net) : PrevMap :=
  net.foldl (fun m n => upd m n.eui64 none) []

/-- `PathFinder.calculate_paths_from_source` (`pathfinder.py` lines 25-53)
on a fresh `PathFinder`: reset, set the source distance to `0`, run the
queue loop. -/
def calculate_paths_from_source (net : Net) (s : String) :
    Option (DistMap × PrevMap) :=
  loop net (fuelFor net) (upd (initDist net) s (some 0), initPrev net, [(0, s)])

/-- One source iteration of `PathFinder.calculate_paths` (`pathfinder.py`
lines 61-82): identical to the single-source loop except that the distance
and predecessor dictionaries are NOT reset, carrying over whatever the
previous iterations left. -/
def calculate_paths_source (net : Net) (st : DistMap × PrevMap) (s : String) :
    Option (DistMap × PrevMap) :=
  loop net (fuelFor net) (upd st.1 s (some 0), st.2, [(0, s)])

/-- `PathFinder.calculate_paths` (`pathfinder.py` lines 55-86) as invoked by
the program: `initialize()` then the all-sources loop.  The final state is
whatever the last source iteration leaves in the shared dictionaries. -/
def calculate_paths (net : Net) : Option (DistMap × PrevMap) :=
  net.foldlM (fun st n => calculate_paths_source net st n.eui64)
    (initDist net, initPrev net)

/-- The `while current is not None:` reconstruction loop of `find_path`
(`pathfinder.py` lines 98-103), producing the reversed path
`[destination, ..., source]`.  A missing `previous_nodes` key is a
`KeyError` (`none`); the fuel `k + 2` chosen by `find_path` below always
suffices because recorded distances strictly decrease along predecessor
links. -/
def reconstruct (prev : PrevMap) : ℕ → String → Option (List String)
  | 0, _ => none
  | fuel + 1, cur =>
    match prev.lookup cur with
    | none => none
    | some none => some [cur]
    | some (some u) => (reconstruct prev fuel u).map (fun p => cur :: p)

/-- `PathFinder.find_path` (`pathfinder.py` lines 88-105) on a fresh
`PathFinder`.  The outer `none` models an uncaught exception (`KeyError`);
`some (none, none)` is the `(None, float('inf'))` no-path result; and
`some (some p, some k)` is a found path with its hop count. -/
def find_path (net : Net) (s d : String) :
    Option (Option (List String) × Option ℕ) := do
  let r ← calculate_paths_from_source net s
  let dd ← r.1.lookup d
  match dd with
  | none => some (none, none)
  | some k => do
    let p ← reconstruct r.2 (k + 2) d
    some (some p.reverse, some k)

/-! Specification-side graph notions used to state the claims. -/

/-- There is a walk of length `n` from `s` to `v` along the raw neighbor
lists. -/
def walkTo (net : Net) (s : String) : ℕ → String → Prop
  | 0, v => v = s
  | n + 1, v => ∃ u, walkTo net s n u ∧ v ∈ adjP net u

/-- Hop distance from `s` to `v`: the least walk length, `⊤` when `v` is
unreachable from `s`. -/
noncomputable def hopDist (net : Net) (s v : String) : ℕ∞ :=
  sInf { k : ℕ∞ | ∃ n : ℕ, k = (n : ℕ∞) ∧ walkTo net s n v }

/-- Distance dictionary values as extended naturals (`none` = `inf`). -/
def toENat (dv : Option ℕ) : ℕ∞ :=
  match dv with
  | none => ⊤
  | some k => (k : ℕ∞)

/-- The key list of the distance dictionary built by
`calculate_paths_from_source` for source `s` over a network with distinct
record ids. -/
def keysListP (net : Net) (s : String) : List String :=
  if s ∈ idsP net then idsP net else idsP net ++ [s]

end IoTNet.PF

namespace IoTNet.Gen

/-! ### The generator (`legacy/generate_network.py` + `iot_node.py`)

Python's global `random` module is modelled by an abstract deterministic
generator: an opaque state (a natural number), a reseeding function, and
draw functions.  `random.seed(s)` replaces the current state by `seedFn s`;
every draw advances the state.  Nothing about the concrete Mersenne
Twister is assumed — the claims only need that the draws are a function of
the state. -/

structure RngModel where
  seedFn : ℕ → ℕ
  nextQ : ℕ → ℚ × ℕ
  nextByte : ℕ → ℕ × ℕ

/-- `random.uniform(a, b)`. -/
def uniform (r : RngModel) (a b : ℚ) (st : ℕ) : ℚ × ℕ :=
  let q := r.nextQ st
  (a + (b - a) * q.1, q.2)

def hexDigits : List Char :=
  ['0', '1', '2', '3', '4', '5', '6', '7', '8', '9', 'A', 'B', 'C', 'D', 'E', 'F']

/-- `f'{b:02X}'` for a byte value. -/
def hexByte (n : ℕ) : String :=
  String.mk [hexDigits.getD (n / 16 % 16) '0', hexDigits.getD (n % 16) '0']

/-- `IoTNode._generate_eui64` (`iot_node.py` lines 29-34): eight random
bytes rendered as hyphen-separated hex octets. -/
def generate_eui64 (r : RngModel) (st : ℕ) : String × ℕ :=
  let res := (List.range 8).foldl
    (fun (acc : List String × ℕ) _ =>
      let b := r.nextByte acc.2
      (acc.1 ++ [hexByte b.1], b.2))
    ([], st)
  (String.intercalate "-" res.1, res.2)

/-- One generated node (`legacy/generate_network.py` lines 41-48): draw
`x`, `y`, `comm_range`, then the node's EUI-64.  The literal `0.3` of the
source is the rational `3/10` in this exact-arithmetic model. -/
def genNode (r : RngModel) (w h maxr : ℚ) (st : ℕ) : Legacy.LNode × ℕ :=
  let xr := uniform r 0 w st
  let yr := uniform r 0 h xr.2
  let rr := uniform r (maxr * (3 / 10)) maxr yr.2
  let er := generate_eui64 r rr.2
  (⟨⟨er.1, xr.1, yr.1, rr.1⟩, []⟩, er.2)

/-- `IoTNetwork.add_node` (`iot_node.py` lines 136-143). -/
def add_node (net : Legacy.LNet) (n : Legacy.LNode) : Legacy.LNet :=
  if (Legacy.idsL net).contains n.eui64 then net else net ++ [n]

/-- `generate_random_network` (`legacy/generate_network.py` lines 13-57):
optionally reseed, generate `n` nodes, then derive all connections. -/
def generate_random_network (r : RngModel) (n : ℕ) (w h maxr : ℚ)
    (seed : Option ℕ) (st : ℕ) : Legacy.LNet × ℕ :=
  let st0 := match seed with
    | some s => r.seedFn s
    | none => st
  let gen := (List.range n).foldl
    (fun (acc : Legacy.LNet × ℕ) _ =>
      let nr := genNode r w h maxr acc.2
      (add_node acc.1 nr.1, nr.2))
    ([], st0)
  (Legacy.update_all_connections gen.1, gen.2)

end IoTNet.Gen

namespace IoTNet.Web

/-! ### The web query layer (`web/app.py`, route `/api/find_path`) -/

inductive RouteResult where
  | errNoNetwork
  | errMissingParams
  | errSourceNotFound (s : String)
  | errDestNotFound (d : String)
  | errSameNode
  | noPath (s d : String)
  | found (s d : String) (path : List String) (dist : ℕ)
deriving DecidableEq, Repr

/-- Modelled from the spec: `find_shortest_path` is imported by the web
layer from `utils.pathfinder` but is not defined anywhere in the repository
sources.  Per spec §4.3, `shortest_path` is a breadth-first hop-count
search returning a no-path marker for unreachable pairs; this model runs
the path engine on the graph's adjacency. -/
def findShortestPathSpec (g : G.Graph) (s d : String) :
    Option (List String × ℕ) :=
  let pnet : PF.Net := g.nodeList.map (fun n => ⟨n.eui64, G.neighborsOf g n.eui64⟩)
  match PF.find_path pnet s d with
  | some (some p, some k) => some (p, k)
  | _ => none

/-- The `/api/find_path` handler (`web/app.py` lines 320-357): the guard
sequence is embedded in source order; `data.get(...)` yielding `None` and
the empty string are both falsy for the `if not source_id or not
destination_id` check. -/
def findPathRoute (current : Option G.Graph) (source destination : Option String) :
    RouteResult :=
  match current with
  | none => .errNoNetwork
  | some g =>
    let sid := source.getD ""
    let did := destination.getD ""
    if sid == "" || did == "" then .errMissingParams
    else if !((G.idsG g).contains sid) then .errSourceNotFound sid
    else if !((G.idsG g).contains did) then .errDestNotFound did
    else if sid == did then .errSameNode
    else
      match findShortestPathSpec g sid did with
      | none => .noPath sid did
      | some pk => .found sid did pk.1 pk.2

end IoTNet.Web

namespace IoTNet.G

/-- The edge that one iteration of the rebuild pair loop contributes. -/
def edgeOfPair (p : IoTNet.NodeData × IoTNet.NodeData) : Option MEdge :=
  if IoTNet.inRange (IoTNet.distSq p.1 p.2)
      (max p.1.communication_range p.2.communication_range) then
    some ⟨p.1.eui64, p.2.eui64, IoTNet.distSq p.1 p.2⟩
  else none

end IoTNet.G

namespace IoTNet.PF

/-! Proof-support notions for the path engine. -/

/-- Well-formed pathfinder input: distinct record ids, and neighbor
references naming records of the file. -/
structure WFNet (net : Net) : Prop where
  nodup : (idsP net).Nodup
  closed : ∀ n ∈ net, ∀ y ∈ n.neighbors, y ∈ idsP net

/-- Key list of an association-list dictionary. -/
def keysOf {β : Type} (m : List (String × β)) : List String := m.map Prod.fst

/-- Invariant of the relaxation loop between iterations.  `L` is a lower
bound on every queue entry (the heap pops are monotone). -/
structure LoopInv (net : Net) (s : String) (dist : DistMap) (prev : PrevMap)
    (q : Queue) (L : ℕ) : Prop where
  keysD : keysOf dist = keysListP net s
  keysP : keysOf prev = idsP net
  distS : dist.lookup s = some (some 0)
  qDist : ∀ e ∈ q, ∃ k, dist.lookup e.2 = some (some k) ∧ k ≤ e.1
  qLB : ∀ e ∈ q, L ≤ e.1
  qNodup : q.Nodup
  main : ∀ v k, dist.lookup v = some (some k) →
    ((k, v) ∈ q ∨ (k ≤ L ∧ ∀ nb ∈ adjP net v, ∃ m ≤ k + 1,
      dist.lookup nb = some (some m)))
  sound : ∀ v k, dist.lookup v = some (some k) → walkTo net s k v
  prevOk : ∀ v u, prev.lookup v = some (some u) →
    ∃ ku kv, dist.lookup u = some (some ku) ∧ dist.lookup v = some (some kv) ∧
      ku < kv ∧ (prev.lookup u).isSome

/-- Invariant holding during the relaxation of `u`'s neighbor list, after
the entry `(d, u)` has been popped. -/
structure MidInv (net : Net) (s u : String) (d : ℕ) (dist : DistMap)
    (prev : PrevMap) (q : Queue) : Prop where
  keysD : keysOf dist = keysListP net s
  keysP : keysOf prev = idsP net
  distS : dist.lookup s = some (some 0)
  distU : dist.lookup u = some (some d)
  qDist : ∀ e ∈ q, ∃ k, dist.lookup e.2 = some (some k) ∧ k ≤ e.1
  qLB : ∀ e ∈ q, d ≤ e.1
  qNodup : q.Nodup
  qU : ∀ e ∈ q, e.2 = u → d < e.1
  main : ∀ v k, v ≠ u → dist.lookup v = some (some k) →
    ((k, v) ∈ q ∨ (k ≤ d ∧ ∀ nb ∈ adjP net v, ∃ m ≤ k + 1,
      dist.lookup nb = some (some m)))
  sound : ∀ v k, dist.lookup v = some (some k) → walkTo net s k v
  prevOk : ∀ v u', prev.lookup v = some (some u') →
    ∃ ku kv, dist.lookup u' = some (some ku) ∧ dist.lookup v = some (some kv) ∧
      ku < kv ∧ (prev.lookup u').isSome

/-- Invariant of a finished run: the queue is empty, so every finite
distance has had all its outgoing references relaxed. -/
structure FinalInv (net : Net) (s : String) (dist : DistMap) (prev : PrevMap) :
    Prop where
  keysD : keysOf dist = keysListP net s
  keysP : keysOf prev = idsP net
  distS : dist.lookup s = some (some 0)
  relaxed : ∀ v k, dist.lookup v = some (some k) →
    ∀ nb ∈ adjP net v, ∃ m ≤ k + 1, dist.lookup nb = some (some m)
  sound : ∀ v k, dist.lookup v = some (some k) → walkTo net s k v
  prevOk : ∀ v u, prev.lookup v = some (some u) →
    ∃ ku kv, dist.lookup u = some (some ku) ∧ dist.lookup v = some (some kv) ∧
      ku < kv ∧ (prev.lookup u).isSome

/-- `v` is settled: its recorded distance is finite and below every queue
entry that could still relax it, so it will never change again. -/
def settledB (dist : DistMap) (q : Queue) (v : String) : Bool :=
  match dist.lookup v with
  | some (some k) => q.all (fun e => !(e.2 == v) || decide (k < e.1))
  | _ => false

/-- Termination potential: every loop iteration strictly decreases it. -/
def phi (net : Net) (dist : DistMap) (q : Queue) : ℕ :=
  q.length + ((keysOf dist).map
    (fun v => if settledB dist q v then 0 else (adjP net v).length)).sum

end IoTNet.PF

namespace IoTNet.Legacy

/-! Proof-support state predicates for the repair pass. -/

/-- Well-formedness preserved by `fix_bidirectional_connections`: the id
list is fixed, every adjacency list is duplicate-free, and every recorded
neighbor is a member of the network. -/
def WFState (base : List String) (st : LNet) : Prop :=
  idsL st = base ∧ ∀ x : String, (adjL st x).Nodup ∧ ∀ y ∈ adjL st x, y ∈ base

/-- All of `x`'s recorded connections are reciprocated. -/
def SymAt (st : LNet) (x : String) : Prop :=
  ∀ y ∈ adjL st x, x ∈ adjL st y

/-- The repair pass has dealt with the ordered pair `(x, y)`: either `x` no
longer records `y`, or `y` reciprocates. -/
def Handled (st : LNet) (x y : String) : Prop :=
  y ∉ adjL st x ∨ x ∈ adjL st y

end IoTNet.Legacy

namespace IoTNet

/-! ## General lemmas -/

theorem distSq_comm (a b : NodeData) : distSq a b = distSq b a := by
  unfold distSq; ring

theorem pairsOf_subset {α : Type} {l : List α} {p : α × α}
    (h : p ∈ pairsOf l) : p.1 ∈ l ∧ p.2 ∈ l := by
  induction l with
  | nil => simp [pairsOf] at h
  | cons x xs ih =>
    simp only [pairsOf, List.mem_append, List.mem_map] at h
    rcases h with ⟨y, hy, he⟩ | h
    · subst he; exact ⟨List.mem_cons_self _ _, List.mem_cons_of_mem _ hy⟩
    · exact ⟨List.mem_cons_of_mem _ (ih h).1, List.mem_cons_of_mem _ (ih h).2⟩

theorem mem_pairsOf_or {α : Type} {l : List α} {a b : α}
    (ha : a ∈ l) (hb : b ∈ l) (hne : a ≠ b) :
    (a, b) ∈ pairsOf l ∨ (b, a) ∈ pairsOf l := by
  induction l with
  | nil => simp at ha
  | cons x xs ih =>
    rcases List.mem_cons.1 ha with rfl | ha'
    · have hb' : b ∈ xs := by
        rcases List.mem_cons.1 hb with rfl | hb'
        · exact absurd rfl hne
        · exact hb'
      exact Or.inl (by
        simp only [pairsOf, List.mem_append, List.mem_map]
        exact Or.inl ⟨b, hb', rfl⟩)
    · rcases List.mem_cons.1 hb with rfl | hb'
      · exact Or.inr (by
          simp only [pairsOf, List.mem_append, List.mem_map]
          exact Or.inl ⟨a, ha', rfl⟩)
      · rcases ih ha' hb' with h | h
        · exact Or.inl (by simp only [pairsOf, List.mem_append]; exact Or.inr h)
        · exact Or.inr (by simp only [pairsOf, List.mem_append]; exact Or.inr h)

end IoTNet

namespace IoTNet.Legacy

theorem lookupL_eq_some_of_mem {net : LNet} (hnd : (idsL net).Nodup)
    {n : LNode} (hn : n ∈ net) : lookupL net n.eui64 = some n := by
  induction net with
  | nil => simp at hn
  | cons m rest ih =>
    rcases List.mem_cons.1 hn with rfl | hn'
    · simp [lookupL, List.find?]
    · have hne : m.eui64 ≠ n.eui64 := by
        intro he
        have : n.eui64 ∈ rest.map (·.eui64) := List.mem_map_of_mem _ hn'
        rw [← he] at this
        exact (List.nodup_cons.1 hnd).1 this
      have hb : (m.eui64 == n.eui64) = false := beq_eq_false_iff_ne.2 hne
      simp only [lookupL, List.find?, hb]
      exact ih (List.nodup_cons.1 hnd).2 hn'

end IoTNet.Legacy

namespace IoTNet

/-! ## C9: seeded generation is deterministic -/

/-- C9: two calls of `generate_random_network` with the same parameters and
the same explicit seed produce identical networks (node identities,
positions, ranges and hence the derived neighbor lists) and identical final
generator states, regardless of the generator state each call starts
from — `random.seed(seed)` overwrites that state. -/
theorem C9_seeded_generation_deterministic
    (r : Gen.RngModel) (n : ℕ) (w h maxr : ℚ) (S : ℕ) (st₁ st₂ : ℕ) :
    Gen.generate_random_network r n w h maxr (some S) st₁ =
      Gen.generate_random_network r n w h maxr (some S) st₂ := rfl

/-! ## C10: the in-range check is one-sided -/

/-- C10: `can_communicate_with a b` compares the distance against only the
calling node's own `communication_range`; consequently it is asymmetric for
some pairs with unequal ranges (witnessed by two concrete nodes), and
`add_neighbor` — the guard used by the legacy load path — refuses the
connection whenever the *calling* node's check fails, regardless of the
other node's range. -/
theorem C10_one_sided_range_check :
    (∀ a b : NodeData,
      can_communicate_with a b = inRange (distSq a b) a.communication_range)
    ∧ (can_communicate_with ⟨"A", 0, 0, 10⟩ ⟨"B", 6, 0, 1⟩ = true
        ∧ can_communicate_with ⟨"B", 6, 0, 1⟩ ⟨"A", 0, 0, 10⟩ = false)
    ∧ (∀ (net : Legacy.LNet) (aid bid : String) (a b : Legacy.LNode),
        Legacy.lookupL net aid = some a → Legacy.lookupL net bid = some b →
        can_communicate_with a.toNodeData b.toNodeData = false →
        Legacy.add_neighbor net aid bid = (net, false)) := by
  refine ⟨fun a b => rfl,
    ⟨by norm_num [can_communicate_with, inRange, distSq],
     by norm_num [can_communicate_with, inRange, distSq]⟩, ?_⟩
  intro net aid bid a b ha hb hcc
  unfold Legacy.add_neighbor
  rw [ha, hb]
  by_cases he : bid = aid
  · simp [he]
  · simp [he, hcc]

theorem C10_one_sided_range_check_witness :
    Legacy.add_neighbor
        [⟨⟨"A", 0, 0, 10⟩, []⟩, ⟨⟨"B", 6, 0, 1⟩, []⟩] "B" "A"
      = ([⟨⟨"A", 0, 0, 10⟩, []⟩, ⟨⟨"B", 6, 0, 1⟩, []⟩], false) :=
  C10_one_sided_range_check.2.2
    [⟨⟨"A", 0, 0, 10⟩, []⟩, ⟨⟨"B", 6, 0, 1⟩, []⟩] "B" "A"
    ⟨⟨"B", 6, 0, 1⟩, []⟩ ⟨⟨"A", 0, 0, 10⟩, []⟩ (by rfl) (by rfl)
    (by norm_num [can_communicate_with, inRange, distSq])

/-! ## C7: identical source and destination are rejected at the query layer -/

/-- C7: for any loaded network and any node identity present in it, querying
the `/api/find_path` route with source = destination is rejected as a caller
error (HTTP 400) before any path computation runs; it never returns a path
result.  (The empty string is also caught earlier by the falsy-parameter
check, again a 400 caller error.) -/
theorem C7_same_source_destination_rejected
    (g : G.Graph) (A : String) (hA : A ∈ G.idsG g) :
    Web.findPathRoute (some g) (some A) (some A) = Web.RouteResult.errSameNode
    ∨ Web.findPathRoute (some g) (some A) (some A)
        = Web.RouteResult.errMissingParams := by
  by_cases h0 : A = ""
  · right
    simp [Web.findPathRoute, h0]
  · left
    have hc : (G.idsG g).contains A = true := List.elem_eq_true_of_mem hA
    have hb : (A == "") = false := beq_eq_false_iff_ne.2 h0
    simp [Web.findPathRoute, hb, hc, hA]

theorem C7_same_source_destination_rejected_witness :
    Web.findPathRoute (some ⟨[⟨"N1", 0, 0, 1⟩], []⟩) (some "N1") (some "N1")
        = Web.RouteResult.errSameNode
    ∨ Web.findPathRoute (some ⟨[⟨"N1", 0, 0, 1⟩], []⟩) (some "N1") (some "N1")
        = Web.RouteResult.errMissingParams :=
  C7_same_source_destination_rejected ⟨[⟨"N1", 0, 0, 1⟩], []⟩ "N1" (by decide)

/-! ## Lemmas about the legacy adjacency-list operations -/

theorem lookupL_map_id_pres (f : Legacy.LNode → Legacy.LNode)
    (hf : ∀ n, (f n).eui64 = n.eui64) (net : Legacy.LNet) (x : String) :
    Legacy.lookupL (net.map f) x = (Legacy.lookupL net x).map f := by
  unfold Legacy.lookupL
  rw [List.find?_map]
  have hp : ((fun n : Legacy.LNode => n.eui64 == x) ∘ f)
      = (fun n : Legacy.LNode => n.eui64 == x) := by
    funext n
    simp [Function.comp, hf n]
  rw [hp]

theorem idsL_map_id_pres (f : Legacy.LNode → Legacy.LNode)
    (hf : ∀ n, (f n).eui64 = n.eui64) (net : Legacy.LNet) :
    Legacy.idsL (net.map f) = Legacy.idsL net := by
  unfold Legacy.idsL
  rw [List.map_map]
  have hp : ((fun n : Legacy.LNode => n.eui64) ∘ f)
      = (fun n : Legacy.LNode => n.eui64) := by
    funext n
    simp [Function.comp, hf n]
  rw [hp]

theorem lookupL_eui {net : Legacy.LNet} {x : String} {n : Legacy.LNode}
    (h : Legacy.lookupL net x = some n) : n.eui64 = x := by
  have := List.find?_some h
  simpa using this

theorem lookupL_isSome_iff (net : Legacy.LNet) (x : String) :
    (Legacy.lookupL net x).isSome ↔ x ∈ Legacy.idsL net := by
  unfold Legacy.lookupL
  rw [List.find?_isSome]
  constructor
  · rintro ⟨n, hn, hbe⟩
    have hne : n.eui64 = x := by simpa using hbe
    exact hne ▸ List.mem_map_of_mem _ hn
  · intro hx
    rcases List.mem_map.1 hx with ⟨n, hn, he⟩
    exact ⟨n, hn, by simp [he]⟩

theorem lookupL_mem {net : Legacy.LNet} {x : String} {n : Legacy.LNode}
    (h : Legacy.lookupL net x = some n) : n ∈ net :=
  List.mem_of_find?_eq_some h

theorem adjL_eq_neighbors {net : Legacy.LNet} (hnd : (Legacy.idsL net).Nodup)
    {n : Legacy.LNode} (hn : n ∈ net) : Legacy.adjL net n.eui64 = n.neighbors := by
  unfold Legacy.adjL
  rw [Legacy.lookupL_eq_some_of_mem hnd hn]
  rfl

theorem mem_adjL_appendGuarded (net : Legacy.LNet) (a b x y : String) :
    y ∈ Legacy.adjL (Legacy.appendGuarded net a b) x ↔
      y ∈ Legacy.adjL net x ∨ (x = a ∧ y = b ∧ x ∈ Legacy.idsL net) := by
  have hf : ∀ n : Legacy.LNode,
      ((fun n : Legacy.LNode =>
        if n.eui64 == a && !(n.neighbors.contains b) then
          { n with neighbors := n.neighbors ++ [b] }
        else n) n).eui64 = n.eui64 := by
    intro n
    dsimp only
    split <;> rfl
  unfold Legacy.adjL Legacy.appendGuarded
  rw [lookupL_map_id_pres _ hf]
  cases h : Legacy.lookupL net x with
  | none =>
    have hx : ¬ x ∈ Legacy.idsL net := by
      rw [← lookupL_isSome_iff, h]
      simp
    simp [hx]
  | some n =>
    have hxn : n.eui64 = x := lookupL_eui h
    have hids : x ∈ Legacy.idsL net := by
      rw [← lookupL_isSome_iff, h]
      simp
    simp only [Option.map_some', Option.getD_some]
    by_cases hxa : x = a
    · have hbeq : (n.eui64 == a) = true := by rw [hxn, hxa]; simp
      by_cases hcb : n.neighbors.contains b
      · have hbmem : b ∈ n.neighbors := by simpa using hcb
        simp only [hbeq, hcb, Bool.not_true, Bool.and_false, if_false]
        constructor
        · intro hy; exact Or.inl hy
        · rintro (hy | ⟨_, rfl, _⟩)
          · exact hy
          · exact hbmem
      · have hcb' : n.neighbors.contains b = false := by simpa using hcb
        simp only [hbeq, hcb', Bool.not_false, Bool.and_true, if_true,
          List.mem_append, List.mem_singleton]
        constructor
        · rintro (hy | rfl)
          · exact Or.inl hy
          · exact Or.inr ⟨hxa, rfl, hids⟩
        · rintro (hy | ⟨_, rfl, _⟩)
          · exact Or.inl hy
          · exact Or.inr rfl
    · have hbeq : (n.eui64 == a) = false := by
        rw [hxn]
        exact beq_eq_false_iff_ne.2 hxa
      simp [hbeq, hxa]

theorem idsL_appendGuarded (net : Legacy.LNet) (a b : String) :
    Legacy.idsL (Legacy.appendGuarded net a b) = Legacy.idsL net := by
  unfold Legacy.appendGuarded
  apply idsL_map_id_pres
  intro n
  dsimp only
  split <;> rfl

theorem idsL_connectPairMin (net : Legacy.LNet) (p : Legacy.LNode × Legacy.LNode) :
    Legacy.idsL (Legacy.connectPairMin net p) = Legacy.idsL net := by
  unfold Legacy.connectPairMin
  split
  · rw [idsL_appendGuarded, idsL_appendGuarded]
  · rfl

theorem idsL_foldl_connect (ps : List (Legacy.LNode × Legacy.LNode)) (acc : Legacy.LNet) :
    Legacy.idsL (ps.foldl Legacy.connectPairMin acc) = Legacy.idsL acc := by
  induction ps generalizing acc with
  | nil => rfl
  | cons p ps ih => rw [List.foldl_cons, ih, idsL_connectPairMin]

theorem mem_adjL_connectPairMin (net : Legacy.LNet) (p : Legacy.LNode × Legacy.LNode)
    (h1 : p.1.eui64 ∈ Legacy.idsL net) (h2 : p.2.eui64 ∈ Legacy.idsL net)
    (x y : String) :
    y ∈ Legacy.adjL (Legacy.connectPairMin net p) x ↔
      y ∈ Legacy.adjL net x ∨
        (IoTNet.inRange (IoTNet.distSq p.1.toNodeData p.2.toNodeData)
            (min p.1.communication_range p.2.communication_range) = true ∧
          ((p.1.eui64 = x ∧ p.2.eui64 = y) ∨ (p.2.eui64 = x ∧ p.1.eui64 = y))) := by
  unfold Legacy.connectPairMin
  split
  · next hin =>
    rw [mem_adjL_appendGuarded, mem_adjL_appendGuarded, idsL_appendGuarded]
    constructor
    · rintro ((hy | ⟨rfl, rfl, _⟩) | ⟨rfl, rfl, _⟩)
      · exact Or.inl hy
      · exact Or.inr ⟨hin, Or.inl ⟨rfl, rfl⟩⟩
      · exact Or.inr ⟨hin, Or.inr ⟨rfl, rfl⟩⟩
    · rintro (hy | ⟨_, (⟨rfl, rfl⟩ | ⟨rfl, rfl⟩)⟩)
      · exact Or.inl (Or.inl hy)
      · exact Or.inl (Or.inr ⟨rfl, rfl, h1⟩)
      · exact Or.inr ⟨rfl, rfl, h2⟩
  · next hin =>
    have hin' : ¬ (IoTNet.inRange (IoTNet.distSq p.1.toNodeData p.2.toNodeData)
        (min p.1.communication_range p.2.communication_range) = true) := hin
    constructor
    · intro hy; exact Or.inl hy
    · rintro (hy | ⟨hw, _⟩)
      · exact hy
      · exact absurd hw hin'

theorem mem_adjL_foldl_connect (ps : List (Legacy.LNode × Legacy.LNode))
    (acc : Legacy.LNet)
    (hps : ∀ p ∈ ps, p.1.eui64 ∈ Legacy.idsL acc ∧ p.2.eui64 ∈ Legacy.idsL acc)
    (x y : String) :
    y ∈ Legacy.adjL (ps.foldl Legacy.connectPairMin acc) x ↔
      y ∈ Legacy.adjL acc x ∨
        ∃ p ∈ ps,
          IoTNet.inRange (IoTNet.distSq p.1.toNodeData p.2.toNodeData)
              (min p.1.communication_range p.2.communication_range) = true ∧
          ((p.1.eui64 = x ∧ p.2.eui64 = y) ∨ (p.2.eui64 = x ∧ p.1.eui64 = y)) := by
  induction ps generalizing acc with
  | nil => simp
  | cons p ps ih =>
    rw [List.foldl_cons]
    have hp := hps p (List.mem_cons_self _ _)
    have hps' : ∀ q ∈ ps,
        q.1.eui64 ∈ Legacy.idsL (Legacy.connectPairMin acc p)
        ∧ q.2.eui64 ∈ Legacy.idsL (Legacy.connectPairMin acc p) := by
      intro q hq
      rw [idsL_connectPairMin]
      exact hps q (List.mem_cons_of_mem _ hq)
    rw [ih _ hps', mem_adjL_connectPairMin acc p hp.1 hp.2]
    constructor
    · rintro ((hy | hcl) | ⟨q, hq, hw, hor⟩)
      · exact Or.inl hy
      · exact Or.inr ⟨p, List.mem_cons_self _ _, hcl⟩
      · exact Or.inr ⟨q, List.mem_cons_of_mem _ hq, hw, hor⟩
    · rintro (hy | ⟨q, hq, hw, hor⟩)
      · exact Or.inl (Or.inl hy)
      · rcases List.mem_cons.1 hq with rfl | hq'
        · exact Or.inl (Or.inr ⟨hw, hor⟩)
        · exact Or.inr ⟨q, hq', hw, hor⟩

theorem adjL_clearNeighbors (net : Legacy.LNet) (x : String) :
    Legacy.adjL (Legacy.clearNeighbors net) x = [] := by
  unfold Legacy.adjL Legacy.clearNeighbors
  rw [lookupL_map_id_pres (fun n => { n with neighbors := [] }) (fun n => rfl)]
  cases Legacy.lookupL net x <;> rfl

theorem idsL_clearNeighbors (net : Legacy.LNet) :
    Legacy.idsL (Legacy.clearNeighbors net) = Legacy.idsL net :=
  idsL_map_id_pres (fun n => { n with neighbors := [] }) (fun n => rfl) net

theorem legacy_update_adj_iff (net : Legacy.LNet) (x y : String) :
    y ∈ Legacy.adjL (Legacy.update_all_connections net) x ↔
      ∃ p ∈ pairsOf (Legacy.clearNeighbors net),
        IoTNet.inRange (IoTNet.distSq p.1.toNodeData p.2.toNodeData)
            (min p.1.communication_range p.2.communication_range) = true ∧
        ((p.1.eui64 = x ∧ p.2.eui64 = y) ∨ (p.2.eui64 = x ∧ p.1.eui64 = y)) := by
  unfold Legacy.update_all_connections
  rw [mem_adjL_foldl_connect]
  · rw [adjL_clearNeighbors]
    simp
  · intro p hp
    have hsub := pairsOf_subset hp
    exact ⟨List.mem_map_of_mem _ hsub.1, List.mem_map_of_mem _ hsub.2⟩

theorem idsL_update_all (net : Legacy.LNet) :
    Legacy.idsL (Legacy.update_all_connections net) = Legacy.idsL net := by
  unfold Legacy.update_all_connections
  rw [idsL_foldl_connect, idsL_clearNeighbors]

theorem legacy_update_mem (net : Legacy.LNet) (hnd : (Legacy.idsL net).Nodup)
    {a b : Legacy.LNode} (ha : a ∈ net) (hb : b ∈ net) (hne : a.eui64 ≠ b.eui64) :
    (b.eui64 ∈ Legacy.adjL (Legacy.update_all_connections net) a.eui64) ↔
      IoTNet.inRange (IoTNet.distSq a.toNodeData b.toNodeData)
        (min a.communication_range b.communication_range) = true := by
  have hndc : ((Legacy.clearNeighbors net).map (·.eui64)).Nodup := by
    have : Legacy.idsL (Legacy.clearNeighbors net) = Legacy.idsL net :=
      idsL_clearNeighbors net
    exact (by rw [Legacy.idsL] at this; rw [this]; exact hnd)
  have hac : ({ a with neighbors := [] } : Legacy.LNode) ∈ Legacy.clearNeighbors net :=
    List.mem_map_of_mem _ ha
  have hbc : ({ b with neighbors := [] } : Legacy.LNode) ∈ Legacy.clearNeighbors net :=
    List.mem_map_of_mem _ hb
  rw [legacy_update_adj_iff]
  constructor
  · rintro ⟨p, hp, hw, hor⟩
    have hsub := pairsOf_subset hp
    rcases hor with ⟨h1, h2⟩ | ⟨h1, h2⟩
    · have e1 : p.1 = { a with neighbors := [] } :=
        List.inj_on_of_nodup_map hndc hsub.1 hac h1
      have e2 : p.2 = { b with neighbors := [] } :=
        List.inj_on_of_nodup_map hndc hsub.2 hbc h2
      rw [e1, e2] at hw
      exact hw
    · have e1 : p.2 = { a with neighbors := [] } :=
        List.inj_on_of_nodup_map hndc hsub.2 hac h1
      have e2 : p.1 = { b with neighbors := [] } :=
        List.inj_on_of_nodup_map hndc hsub.1 hbc h2
      rw [e1, e2] at hw
      rw [distSq_comm, min_comm] at hw
      exact hw
  · intro hw
    have hnec : ({ a with neighbors := [] } : Legacy.LNode)
        ≠ { b with neighbors := [] } := by
      intro h
      exact hne (congrArg (·.eui64) h)
    rcases mem_pairsOf_or hac hbc hnec with h | h
    · exact ⟨_, h, hw, Or.inl ⟨rfl, rfl⟩⟩
    · refine ⟨_, h, ?_, Or.inr ⟨rfl, rfl⟩⟩
      show IoTNet.inRange (IoTNet.distSq b.toNodeData a.toNodeData)
        (min b.communication_range a.communication_range) = true
      rw [distSq_comm, min_comm]
      exact hw

theorem legacy_validate_after_update (net : Legacy.LNet)
    (hnd : (Legacy.idsL net).Nodup) :
    Legacy.validate_bidirectional_connections (Legacy.update_all_connections net)
      = true := by
  unfold Legacy.validate_bidirectional_connections
  rw [List.all_eq_true]
  intro n hn
  rw [List.all_eq_true]
  intro y hy
  have hids : Legacy.idsL (Legacy.update_all_connections net) = Legacy.idsL net :=
    idsL_update_all net
  have hndres : (Legacy.idsL (Legacy.update_all_connections net)).Nodup := by
    rw [hids]; exact hnd
  have hyadj : y ∈ Legacy.adjL (Legacy.update_all_connections net) n.eui64 := by
    rw [adjL_eq_neighbors hndres hn]; exact hy
  rw [legacy_update_adj_iff] at hyadj
  obtain ⟨p, hp, hw, hor⟩ := hyadj
  have hsub := pairsOf_subset hp
  have hysym : n.eui64 ∈ Legacy.adjL (Legacy.update_all_connections net) y := by
    rw [legacy_update_adj_iff]
    refine ⟨p, hp, hw, ?_⟩
    rcases hor with ⟨h1, h2⟩ | ⟨h1, h2⟩
    · exact Or.inr ⟨h2, h1⟩
    · exact Or.inl ⟨h2, h1⟩
  have hyids : y ∈ Legacy.idsL (Legacy.update_all_connections net) := by
    rw [hids, ← idsL_clearNeighbors net]
    rcases hor with ⟨h1, h2⟩ | ⟨h1, h2⟩
    · exact h2 ▸ List.mem_map_of_mem _ hsub.2
    · exact h2 ▸ List.mem_map_of_mem _ hsub.1
  obtain ⟨m, hm⟩ := Option.isSome_iff_exists.1
    ((lookupL_isSome_iff (Legacy.update_all_connections net) y).2 hyids)
  have hma : Legacy.adjL (Legacy.update_all_connections net) y = m.neighbors := by
    unfold Legacy.adjL; rw [hm]; rfl
  simp only [hm]
  rw [hma] at hysym
  exact List.elem_eq_true_of_mem hysym

/-! ## Lemmas about the current (graph) representation -/

theorem g_foldl_connect (ps : List (IoTNet.NodeData × IoTNet.NodeData)) (acc : G.Graph) :
    ps.foldl
      (fun acc p =>
        if IoTNet.inRange (IoTNet.distSq p.1 p.2)
            (max p.1.communication_range p.2.communication_range) then
          G.addEdge acc p.1.eui64 p.2.eui64 (IoTNet.distSq p.1 p.2)
        else acc) acc
      = ⟨acc.nodeList, acc.edges ++ ps.filterMap G.edgeOfPair⟩ := by
  induction ps generalizing acc with
  | nil => simp
  | cons p ps ih =>
    rw [List.foldl_cons]
    by_cases h : IoTNet.inRange (IoTNet.distSq p.1 p.2)
        (max p.1.communication_range p.2.communication_range) = true
    · rw [if_pos h, ih]
      simp [G.addEdge, G.edgeOfPair, h]
    · rw [if_neg h, ih]
      simp only [List.filterMap_cons, G.edgeOfPair, if_neg h]

theorem g_update_eq (g : G.Graph) :
    G.update_all_connections g
      = ⟨g.nodeList, (pairsOf g.nodeList).filterMap G.edgeOfPair⟩ := by
  unfold G.update_all_connections
  rw [g_foldl_connect]
  rfl

theorem hasEdge_iff (g : G.Graph) (a b : String) :
    G.hasEdge g a b = true ↔
      ∃ e ∈ g.edges, (e.u = a ∧ e.v = b) ∨ (e.u = b ∧ e.v = a) := by
  unfold G.hasEdge
  rw [List.any_eq_true]
  constructor
  · rintro ⟨e, he, hp⟩
    refine ⟨e, he, ?_⟩
    rcases Bool.or_eq_true_iff.1 hp with h | h
    · rcases Bool.and_eq_true_iff.1 h with ⟨h1, h2⟩
      exact Or.inl ⟨by simpa using h1, by simpa using h2⟩
    · rcases Bool.and_eq_true_iff.1 h with ⟨h1, h2⟩
      exact Or.inr ⟨by simpa using h1, by simpa using h2⟩
  · rintro ⟨e, he, (⟨h1, h2⟩ | ⟨h1, h2⟩)⟩
    · exact ⟨e, he, by simp [h1, h2]⟩
    · exact ⟨e, he, by simp [h1, h2]⟩

theorem mem_filterMap_edgeOfPair {ps : List (IoTNet.NodeData × IoTNet.NodeData)}
    {e : G.MEdge} (h : e ∈ ps.filterMap G.edgeOfPair) :
    ∃ p ∈ ps,
      IoTNet.inRange (IoTNet.distSq p.1 p.2)
          (max p.1.communication_range p.2.communication_range) = true ∧
      e = ⟨p.1.eui64, p.2.eui64, IoTNet.distSq p.1 p.2⟩ := by
  rcases List.mem_filterMap.1 h with ⟨p, hp, he⟩
  unfold G.edgeOfPair at he
  by_cases hw : IoTNet.inRange (IoTNet.distSq p.1 p.2)
      (max p.1.communication_range p.2.communication_range) = true
  · rw [if_pos hw] at he
    exact ⟨p, hp, hw, (Option.some_inj.1 he).symm⟩
  · rw [if_neg hw] at he
    exact absurd he (by simp)

theorem g_filterMap_pred_elim (g : G.Graph) (hnd : (G.idsG g).Nodup)
    {a b : IoTNet.NodeData} (ha : a ∈ g.nodeList) (hb : b ∈ g.nodeList)
    {e : G.MEdge} (hmem : e ∈ (pairsOf g.nodeList).filterMap G.edgeOfPair)
    (hpred : ((e.u == a.eui64 && e.v == b.eui64)
      || (e.u == b.eui64 && e.v == a.eui64)) = true) :
    IoTNet.inRange (IoTNet.distSq a b)
        (max a.communication_range b.communication_range) = true
      ∧ e.w = IoTNet.distSq a b := by
  have hnd' : (g.nodeList.map (·.eui64)).Nodup := hnd
  obtain ⟨p, hp, hw, hef⟩ := mem_filterMap_edgeOfPair hmem
  have hsub := pairsOf_subset hp
  rcases Bool.or_eq_true_iff.1 hpred with h | h
  · rcases Bool.and_eq_true_iff.1 h with ⟨h1, h2⟩
    have h1' : p.1.eui64 = a.eui64 := by rw [hef] at h1; simpa using h1
    have h2' : p.2.eui64 = b.eui64 := by rw [hef] at h2; simpa using h2
    have e1 : p.1 = a := List.inj_on_of_nodup_map hnd' hsub.1 ha h1'
    have e2 : p.2 = b := List.inj_on_of_nodup_map hnd' hsub.2 hb h2'
    rw [e1, e2] at hw hef
    exact ⟨hw, by rw [hef]⟩
  · rcases Bool.and_eq_true_iff.1 h with ⟨h1, h2⟩
    have h1' : p.1.eui64 = b.eui64 := by rw [hef] at h1; simpa using h1
    have h2' : p.2.eui64 = a.eui64 := by rw [hef] at h2; simpa using h2
    have e1 : p.1 = b := List.inj_on_of_nodup_map hnd' hsub.1 hb h1'
    have e2 : p.2 = a := List.inj_on_of_nodup_map hnd' hsub.2 ha h2'
    rw [e1, e2] at hw hef
    rw [distSq_comm b a, max_comm] at hw
    exact ⟨hw, by rw [hef]; exact distSq_comm b a⟩

/-! ## C1: rebuild derives exactly the predicate-satisfying edges -/

/-- C1: after a rebuild (`update_all_connections`), for every pair of
distinct nodes an edge exists iff `distance(a,b) ≤ combine(range a, range b)`
under the file's combining policy — `max` (permissive) in the current
`core/network.py`, which is the production default, and `min` (conservative)
in the legacy `iot_node.py` — and in the current representation every such
edge's stored weight is the Euclidean distance between the two nodes
(weights are represented by their squares, see the file header). -/
theorem C1_rebuild_edges_iff_predicate :
    (∀ (g : G.Graph), (G.idsG g).Nodup →
      ∀ a b : IoTNet.NodeData, a ∈ g.nodeList → b ∈ g.nodeList →
        a.eui64 ≠ b.eui64 →
        (G.hasEdge (G.update_all_connections g) a.eui64 b.eui64
          = IoTNet.inRange (IoTNet.distSq a b)
              (max a.communication_range b.communication_range))
        ∧ (G.edgeWeight (G.update_all_connections g) a.eui64 b.eui64
          = if IoTNet.inRange (IoTNet.distSq a b)
                (max a.communication_range b.communication_range) = true then
              some (IoTNet.distSq a b)
            else none))
    ∧ (∀ (net : Legacy.LNet), (Legacy.idsL net).Nodup →
      ∀ a b : Legacy.LNode, a ∈ net → b ∈ net → a.eui64 ≠ b.eui64 →
        ((b.eui64 ∈ Legacy.adjL (Legacy.update_all_connections net) a.eui64) ↔
          IoTNet.inRange (IoTNet.distSq a.toNodeData b.toNodeData)
            (min a.communication_range b.communication_range) = true)) := by
  constructor
  · intro g hnd a b ha hb hne
    have hane : a ≠ b := fun h => hne (congrArg (·.eui64) h)
    have hupd := g_update_eq g
    have hEdge : G.hasEdge (G.update_all_connections g) a.eui64 b.eui64
        = IoTNet.inRange (IoTNet.distSq a b)
            (max a.communication_range b.communication_range) := by
      cases hw : IoTNet.inRange (IoTNet.distSq a b)
          (max a.communication_range b.communication_range) with
      | true =>
        rw [hupd]
        apply (hasEdge_iff _ _ _).2
        rcases mem_pairsOf_or ha hb hane with hp | hp
        · refine ⟨⟨a.eui64, b.eui64, IoTNet.distSq a b⟩, ?_, Or.inl ⟨rfl, rfl⟩⟩
          exact List.mem_filterMap.2 ⟨(a, b), hp, by simp [G.edgeOfPair, hw]⟩
        · refine ⟨⟨b.eui64, a.eui64, IoTNet.distSq b a⟩, ?_, Or.inr ⟨rfl, rfl⟩⟩
          have hw' : IoTNet.inRange (IoTNet.distSq b a)
              (max b.communication_range a.communication_range) = true := by
            rw [distSq_comm b a, max_comm]; exact hw
          exact List.mem_filterMap.2 ⟨(b, a), hp, by simp [G.edgeOfPair, hw']⟩
      | false =>
        rw [hupd]
        apply Bool.eq_false_iff.2
        intro hcon
        obtain ⟨e, he, hor⟩ := (hasEdge_iff _ _ _).1 hcon
        have hpred : ((e.u == a.eui64 && e.v == b.eui64)
            || (e.u == b.eui64 && e.v == a.eui64)) = true := by
          rcases hor with ⟨h1, h2⟩ | ⟨h1, h2⟩ <;> simp [h1, h2]
        have := (g_filterMap_pred_elim g hnd ha hb he hpred).1
        rw [hw] at this
        exact Bool.false_ne_true this
    refine ⟨hEdge, ?_⟩
    cases hw : IoTNet.inRange (IoTNet.distSq a b)
        (max a.communication_range b.communication_range) with
    | true =>
      rw [if_pos rfl]
      rw [hw] at hEdge
      rw [hupd] at hEdge ⊢
      unfold G.hasEdge at hEdge
      unfold G.edgeWeight
      have hsome : (List.filterMap G.edgeOfPair (pairsOf g.nodeList)).find?
          (fun e => (e.u == a.eui64 && e.v == b.eui64)
            || (e.u == b.eui64 && e.v == a.eui64)) |>.isSome := by
        rw [List.find?_isSome]
        exact List.any_eq_true.1 hEdge
      obtain ⟨e, hfind⟩ := Option.isSome_iff_exists.1 hsome
      have hmem := List.mem_of_find?_eq_some hfind
      have hpred := List.find?_some hfind
      have hwt := (g_filterMap_pred_elim g hnd ha hb hmem hpred).2
      rw [hfind]
      simp [hwt]
    | false =>
      rw [if_neg (by simp)]
      rw [hupd]
      unfold G.edgeWeight
      have hnone : (List.filterMap G.edgeOfPair (pairsOf g.nodeList)).find?
          (fun e => (e.u == a.eui64 && e.v == b.eui64)
            || (e.u == b.eui64 && e.v == a.eui64)) = none := by
        rw [List.find?_eq_none]
        intro e he hpred
        have := (g_filterMap_pred_elim g hnd ha hb he hpred).1
        rw [hw] at this
        exact Bool.false_ne_true this
      rw [hnone]
      rfl
  · intro net hnd a b ha hb hne
    exact legacy_update_mem net hnd ha hb hne

theorem C1_rebuild_edges_iff_predicate_witness :
    G.hasEdge
        (G.update_all_connections ⟨[⟨"A", 0, 0, 10⟩, ⟨"B", 6, 0, 1⟩], []⟩)
        "A" "B"
      = IoTNet.inRange (IoTNet.distSq ⟨"A", 0, 0, 10⟩ ⟨"B", 6, 0, 1⟩)
          (max (10 : ℚ) 1) :=
  ((C1_rebuild_edges_iff_predicate.1 ⟨[⟨"A", 0, 0, 10⟩, ⟨"B", 6, 0, 1⟩], []⟩
      (by decide) ⟨"A", 0, 0, 10⟩ ⟨"B", 6, 0, 1⟩
      (by simp) (by simp) (by decide)).1)

/-! ## C6: repair of a hand-constructed one-sided connection -/

/-- C6: for a two-node network where `A` records `B` as neighbor but `B`
does not record `A`: if the repair's re-evaluated reachability predicate
(`A.can_communicate_with(B)`) holds, `fix_bidirectional_connections` adds
the missing reciprocal edge and returns a fix count of 1; otherwise it
removes `A`'s stale one-sided reference and returns 1. -/
theorem C6_repair_one_sided_pair (A B : Legacy.LNode)
    (hA : A.neighbors = [B.eui64]) (hB : B.neighbors = [])
    (hne : A.eui64 ≠ B.eui64) :
    (IoTNet.can_communicate_with A.toNodeData B.toNodeData = true →
      Legacy.fix_bidirectional_connections [A, B]
        = ([A, { B with neighbors := [A.eui64] }], 1))
    ∧ (IoTNet.can_communicate_with A.toNodeData B.toNodeData = false →
      Legacy.fix_bidirectional_connections [A, B]
        = ([{ A with neighbors := [] }, B], 1)) := by
  have hab : (A.eui64 == B.eui64) = false := beq_eq_false_iff_ne.2 hne
  have hba : (B.eui64 == A.eui64) = false := beq_eq_false_iff_ne.2 (Ne.symm hne)
  have hne' : B.eui64 ≠ A.eui64 := Ne.symm hne
  constructor
  · intro hcc
    simp [Legacy.fix_bidirectional_connections, Legacy.idsL, Legacy.fixNode,
      Legacy.fixStep, Legacy.adjL, Legacy.lookupL, Legacy.appendRaw,
      Legacy.eraseNeighbor, List.find?, hA, hB, hab, hba, hcc, hne, hne']
  · intro hcc
    simp [Legacy.fix_bidirectional_connections, Legacy.idsL, Legacy.fixNode,
      Legacy.fixStep, Legacy.adjL, Legacy.lookupL, Legacy.appendRaw,
      Legacy.eraseNeighbor, List.find?, hA, hB, hab, hba, hcc, hne, hne']

theorem C6_repair_one_sided_pair_witness :
    Legacy.fix_bidirectional_connections
        [⟨⟨"A", 0, 0, 10⟩, ["B"]⟩, ⟨⟨"B", 6, 0, 1⟩, []⟩]
      = ([⟨⟨"A", 0, 0, 10⟩, ["B"]⟩, ⟨⟨"B", 6, 0, 1⟩, ["A"]⟩], 1) :=
  (C6_repair_one_sided_pair ⟨⟨"A", 0, 0, 10⟩, ["B"]⟩ ⟨⟨"B", 6, 0, 1⟩, []⟩
      rfl rfl (by decide)).1
    (by norm_num [can_communicate_with, inRange, distSq])

/-! ## The repair pass restores symmetry (legacy representation) -/

theorem idsL_appendRaw (net : Legacy.LNet) (a b : String) :
    Legacy.idsL (Legacy.appendRaw net a b) = Legacy.idsL net := by
  unfold Legacy.appendRaw
  apply idsL_map_id_pres
  intro n
  dsimp only
  split <;> rfl

theorem idsL_eraseNeighbor (net : Legacy.LNet) (a b : String) :
    Legacy.idsL (Legacy.eraseNeighbor net a b) = Legacy.idsL net := by
  unfold Legacy.eraseNeighbor
  apply idsL_map_id_pres
  intro n
  dsimp only
  split <;> rfl

theorem adjL_appendRaw_ne (net : Legacy.LNet) (a b : String) {x : String}
    (hx : x ≠ a) : Legacy.adjL (Legacy.appendRaw net a b) x = Legacy.adjL net x := by
  have hf : ∀ n : Legacy.LNode,
      ((fun n : Legacy.LNode =>
        if n.eui64 == a then { n with neighbors := n.neighbors ++ [b] } else n) n).eui64
        = n.eui64 := by
    intro n
    dsimp only
    split <;> rfl
  unfold Legacy.adjL Legacy.appendRaw
  rw [lookupL_map_id_pres _ hf]
  cases h : Legacy.lookupL net x with
  | none => rfl
  | some n =>
    have hxn : n.eui64 = x := lookupL_eui h
    have hne2 : n.eui64 ≠ a := by rw [hxn]; exact hx
    simp [hne2]

theorem adjL_appendRaw_self (net : Legacy.LNet) (a b : String)
    (ha : a ∈ Legacy.idsL net) :
    Legacy.adjL (Legacy.appendRaw net a b) a = Legacy.adjL net a ++ [b] := by
  have hf : ∀ n : Legacy.LNode,
      ((fun n : Legacy.LNode =>
        if n.eui64 == a then { n with neighbors := n.neighbors ++ [b] } else n) n).eui64
        = n.eui64 := by
    intro n
    dsimp only
    split <;> rfl
  unfold Legacy.adjL Legacy.appendRaw
  rw [lookupL_map_id_pres _ hf]
  cases h : Legacy.lookupL net a with
  | none =>
    exact absurd ((lookupL_isSome_iff net a).2 ha) (by rw [h]; simp)
  | some n =>
    have hxn : n.eui64 = a := lookupL_eui h
    simp [hxn]

theorem adjL_eraseNeighbor_eq (net : Legacy.LNet) (a b x : String) :
    Legacy.adjL (Legacy.eraseNeighbor net a b) x
      = if x = a then (Legacy.adjL net a).erase b else Legacy.adjL net x := by
  have hf : ∀ n : Legacy.LNode,
      ((fun n : Legacy.LNode =>
        if n.eui64 == a then { n with neighbors := n.neighbors.erase b } else n) n).eui64
        = n.eui64 := by
    intro n
    dsimp only
    split <;> rfl
  unfold Legacy.adjL Legacy.eraseNeighbor
  rw [lookupL_map_id_pres _ hf]
  by_cases hx : x = a
  · subst hx
    rw [if_pos rfl]
    cases h : Legacy.lookupL net x with
    | none => rfl
    | some n =>
      have hxn : n.eui64 = x := lookupL_eui h
      simp [hxn]
  · rw [if_neg hx]
    cases h : Legacy.lookupL net x with
    | none => rfl
    | some n =>
      have hxn : n.eui64 = x := lookupL_eui h
      have hne2 : n.eui64 ≠ a := by rw [hxn]; exact hx
      simp [hne2]

theorem fixStep_spec (base : List String) (xid y : String) (p : Legacy.LNet × ℕ)
    (hwf : Legacy.WFState base p.1) (hx : xid ∈ base) (hy : y ∈ base)
    (hyx : y ∈ Legacy.adjL p.1 xid) :
    Legacy.WFState base (Legacy.fixStep xid p y).1
    ∧ Legacy.Handled (Legacy.fixStep xid p y).1 xid y
    ∧ (∀ z, z ≠ y → Legacy.Handled p.1 xid z →
        Legacy.Handled (Legacy.fixStep xid p y).1 xid z)
    ∧ (∀ w, w ≠ xid → Legacy.SymAt p.1 w → Legacy.SymAt (Legacy.fixStep xid p y).1 w)
    ∧ (Legacy.adjL (Legacy.fixStep xid p y).1 xid ⊆ Legacy.adjL p.1 xid)
    ∧ (∀ z ∈ Legacy.adjL p.1 xid, z ≠ y →
        z ∈ Legacy.adjL (Legacy.fixStep xid p y).1 xid) := by
  obtain ⟨hids, hall⟩ := hwf
  by_cases hc : (Legacy.adjL p.1 y).contains xid = true
  · have hmem : xid ∈ Legacy.adjL p.1 y := by simpa using hc
    have hq : Legacy.fixStep xid p y = p := by
      unfold Legacy.fixStep
      rw [if_pos hc]
    rw [hq]
    exact ⟨⟨hids, hall⟩, Or.inr hmem, fun z _ hz => hz, fun w _ hw => hw,
      fun z hz => hz, fun z hz _ => hz⟩
  · have hnm : xid ∉ Legacy.adjL p.1 y := by
      intro hmem
      exact hc (by simpa using hmem)
    have hyne : y ≠ xid := by
      intro he
      subst he
      exact hnm hyx
    obtain ⟨xo, hxo⟩ := Option.isSome_iff_exists.1
      ((lookupL_isSome_iff p.1 xid).2 (by rw [hids]; exact hx))
    obtain ⟨yo, hyo⟩ := Option.isSome_iff_exists.1
      ((lookupL_isSome_iff p.1 y).2 (by rw [hids]; exact hy))
    have hyid : y ∈ Legacy.idsL p.1 := by rw [hids]; exact hy
    have hq : Legacy.fixStep xid p y
        = if IoTNet.can_communicate_with xo.toNodeData yo.toNodeData then
            (Legacy.appendRaw p.1 y xid, p.2 + 1)
          else (Legacy.eraseNeighbor p.1 xid y, p.2 + 1) := by
      unfold Legacy.fixStep
      rw [if_neg hc, hxo, hyo]
    by_cases hcc : IoTNet.can_communicate_with xo.toNodeData yo.toNodeData = true
    · -- the predicate holds: append the missing reciprocal reference
      rw [hq, if_pos hcc]
      have hself : Legacy.adjL (Legacy.appendRaw p.1 y xid) y
          = Legacy.adjL p.1 y ++ [xid] := adjL_appendRaw_self p.1 y xid hyid
      have hne : ∀ x', x' ≠ y →
          Legacy.adjL (Legacy.appendRaw p.1 y xid) x' = Legacy.adjL p.1 x' :=
        fun x' hx' => adjL_appendRaw_ne p.1 y xid hx'
      have hsup : ∀ x', Legacy.adjL p.1 x'
          ⊆ Legacy.adjL (Legacy.appendRaw p.1 y xid) x' := by
        intro x'
        by_cases hx' : x' = y
        · subst hx'
          rw [hself]
          exact fun z hz => List.mem_append_left _ hz
        · rw [hne x' hx']
          exact fun z hz => hz
      refine ⟨⟨by rw [idsL_appendRaw]; exact hids, ?_⟩, ?_, ?_, ?_, ?_, ?_⟩
      · intro x'
        by_cases hx' : x' = y
        · subst hx'
          rw [hself]
          constructor
          · rw [List.nodup_append]
            refine ⟨(hall x').1, List.nodup_singleton _, ?_⟩
            intro z hz hz'
            rw [List.mem_singleton.1 hz'] at hz
            exact hnm hz
          · intro z hz
            rcases List.mem_append.1 hz with hz | hz
            · exact (hall x').2 z hz
            · rw [List.mem_singleton.1 hz]
              exact hx
        · rw [hne x' hx']
          exact hall x'
      · exact Or.inr (by rw [hself]; exact List.mem_append_right _ (by simp))
      · intro z _ hz
        rcases hz with hz | hz
        · exact Or.inl (by rw [hne xid (Ne.symm hyne)]; exact hz)
        · exact Or.inr (hsup z hz)
      · intro w hw hsym z hz
        by_cases hwy : w = y
        · subst hwy
          rw [hself] at hz
          rcases List.mem_append.1 hz with hz | hz
          · exact hsup z (hsym z hz)
          · rw [List.mem_singleton.1 hz]
            rw [hne xid (Ne.symm hyne)]
            exact hyx
        · rw [hne w hwy] at hz
          exact hsup z (hsym z hz)
      · rw [hne xid (Ne.symm hyne)]
        exact fun z hz => hz
      · intro z hz _
        rw [hne xid (Ne.symm hyne)]
        exact hz
    · -- the predicate fails: remove the stale one-sided reference
      rw [hq, if_neg hcc]
      have hadj : ∀ x', Legacy.adjL (Legacy.eraseNeighbor p.1 xid y) x'
          = if x' = xid then (Legacy.adjL p.1 xid).erase y else Legacy.adjL p.1 x' :=
        fun x' => adjL_eraseNeighbor_eq p.1 xid y x'
      refine ⟨⟨by rw [idsL_eraseNeighbor]; exact hids, ?_⟩, ?_, ?_, ?_, ?_, ?_⟩
      · intro x'
        rw [hadj x']
        by_cases hx' : x' = xid
        · rw [if_pos hx']
          exact ⟨(hall xid).1.erase y,
            fun z hz => (hall xid).2 z (List.erase_subset _ _ hz)⟩
        · rw [if_neg hx']
          exact hall x'
      · refine Or.inl ?_
        rw [hadj xid, if_pos rfl]
        intro hmem
        exact (((hall xid).1.mem_erase_iff).1 hmem).1 rfl
      · intro z hzy hz
        rcases hz with hz | hz
        · refine Or.inl ?_
          rw [hadj xid, if_pos rfl]
          intro hmem
          exact hz (List.erase_subset _ _ hmem)
        · refine Or.inr ?_
          rw [hadj z]
          by_cases hzx : z = xid
          · rw [if_pos hzx]
            exact (List.mem_erase_of_ne (Ne.symm hyne)).2 (hzx ▸ hz)
          · rw [if_neg hzx]
            exact hz
      · intro w hw hsym z hz
        rw [hadj w, if_neg hw] at hz
        have hwz : w ∈ Legacy.adjL p.1 z := hsym z hz
        rw [hadj z]
        by_cases hzx : z = xid
        · rw [if_pos hzx]
          subst hzx
          have hwy : w ≠ y := by
            intro he
            subst he
            exact hnm hz
          exact (List.mem_erase_of_ne hwy).2 hwz
        · rw [if_neg hzx]
          exact hwz
      · rw [hadj xid, if_pos rfl]
        exact fun z hz => List.erase_subset _ _ hz
      · intro z hz hzy
        rw [hadj xid, if_pos rfl]
        exact (List.mem_erase_of_ne hzy).2 hz

theorem fix_inner_spec (base : List String) (xid : String) (hx : xid ∈ base) :
    ∀ (snap : List String) (p : Legacy.LNet × ℕ),
      Legacy.WFState base p.1 →
      snap.Nodup →
      (∀ y ∈ snap, y ∈ Legacy.adjL p.1 xid) →
      Legacy.WFState base (snap.foldl (Legacy.fixStep xid) p).1
      ∧ (∀ y ∈ snap, Legacy.Handled (snap.foldl (Legacy.fixStep xid) p).1 xid y)
      ∧ (∀ z, Legacy.Handled p.1 xid z → z ∉ snap →
          Legacy.Handled (snap.foldl (Legacy.fixStep xid) p).1 xid z)
      ∧ (∀ w, w ≠ xid → Legacy.SymAt p.1 w →
          Legacy.SymAt (snap.foldl (Legacy.fixStep xid) p).1 w)
      ∧ (Legacy.adjL (snap.foldl (Legacy.fixStep xid) p).1 xid
          ⊆ Legacy.adjL p.1 xid) := by
  intro snap
  induction snap with
  | nil =>
    intro p hwf _ _
    exact ⟨hwf, by simp, fun z hz _ => hz, fun w _ hw => hw, fun z hz => hz⟩
  | cons y ys ih =>
    intro p hwf hnds hpres
    have hyb : y ∈ base :=
      (hwf.2 xid).2 y (hpres y (List.mem_cons_self _ _))
    have hyx : y ∈ Legacy.adjL p.1 xid := hpres y (List.mem_cons_self _ _)
    obtain ⟨hwf', hhy, hhpres, hsym', hsub', hkeep⟩ :=
      fixStep_spec base xid y p hwf hx hyb hyx
    have hynotys : y ∉ ys := (List.nodup_cons.1 hnds).1
    have hpres' : ∀ y' ∈ ys, y' ∈ Legacy.adjL (Legacy.fixStep xid p y).1 xid := by
      intro y' hy'
      have hney : y' ≠ y := fun he => hynotys (he ▸ hy')
      exact hkeep y' (hpres y' (List.mem_cons_of_mem _ hy')) hney
    obtain ⟨ihwf, ihh, ihp, ihs, ihsub⟩ :=
      ih (Legacy.fixStep xid p y) hwf' (List.nodup_cons.1 hnds).2 hpres'
    rw [List.foldl_cons]
    refine ⟨ihwf, ?_, ?_, ?_, ?_⟩
    · intro y' hy'
      rcases List.mem_cons.1 hy' with rfl | hy'
      · exact ihp y' hhy hynotys
      · exact ihh y' hy'
    · intro z hz hzn
      have hzy : z ≠ y := fun he => hzn (he ▸ List.mem_cons_self _ _)
      have hzys : z ∉ ys := fun he => hzn (List.mem_cons_of_mem _ he)
      exact ihp z (hhpres z hzy hz) hzys
    · intro w hw hsw
      exact ihs w hw (hsym' w hw hsw)
    · exact fun z hz => hsub' (ihsub hz)

theorem fix_outer_spec (base : List String) :
    ∀ (ids done : List String) (p : Legacy.LNet × ℕ),
      Legacy.WFState base p.1 →
      (∀ x ∈ ids, x ∈ base) →
      ids.Nodup →
      (∀ w ∈ done, w ∉ ids) →
      (∀ w ∈ done, Legacy.SymAt p.1 w) →
      Legacy.WFState base (ids.foldl Legacy.fixNode p).1
      ∧ (∀ w, w ∈ done ∨ w ∈ ids →
          Legacy.SymAt (ids.foldl Legacy.fixNode p).1 w) := by
  intro ids
  induction ids with
  | nil =>
    intro done p hwf _ _ _ hdone
    refine ⟨hwf, ?_⟩
    rintro w (hw | hw)
    · exact hdone w hw
    · simp at hw
  | cons x ids ih =>
    intro done p hwf hsub hnd hdisj hdone
    have hxb : x ∈ base := hsub x (List.mem_cons_self _ _)
    have hq : Legacy.fixNode p x = (Legacy.adjL p.1 x).foldl (Legacy.fixStep x) p := rfl
    obtain ⟨qwf, qh, _, qsym, qsub⟩ :=
      fix_inner_spec base x hxb (Legacy.adjL p.1 x) p hwf ((hwf.2 x).1)
        (fun y hy => hy)
    have hsymx : Legacy.SymAt (Legacy.fixNode p x).1 x := by
      intro y hy
      have hy2 : y ∈ Legacy.adjL
          ((Legacy.adjL p.1 x).foldl (Legacy.fixStep x) p).1 x := hy
      have hy' : y ∈ Legacy.adjL p.1 x := qsub hy2
      rcases qh y hy' with hno | hyes
      · exact absurd hy2 hno
      · exact hyes
    have hqwf : Legacy.WFState base (Legacy.fixNode p x).1 := by rw [hq]; exact qwf
    have hdone' : ∀ w ∈ done ++ [x], Legacy.SymAt (Legacy.fixNode p x).1 w := by
      intro w hw
      rcases List.mem_append.1 hw with hw | hw
      · have hwx : w ≠ x := fun he =>
          (hdisj w hw) (he ▸ List.mem_cons_self _ _)
        rw [hq]
        exact qsym w hwx (hdone w hw)
      · rw [List.mem_singleton.1 hw]
        exact hsymx
    have hdisj' : ∀ w ∈ done ++ [x], w ∉ ids := by
      intro w hw
      rcases List.mem_append.1 hw with hw | hw
      · exact fun he => (hdisj w hw) (List.mem_cons_of_mem _ he)
      · rw [List.mem_singleton.1 hw]
        exact (List.nodup_cons.1 hnd).1
    obtain ⟨fwf, fsym⟩ := ih (done ++ [x]) (Legacy.fixNode p x) hqwf
      (fun z hz => hsub z (List.mem_cons_of_mem _ hz))
      (List.nodup_cons.1 hnd).2 hdisj' hdone'
    rw [List.foldl_cons]
    refine ⟨fwf, ?_⟩
    rintro w (hw | hw)
    · exact fsym w (Or.inl (List.mem_append_left _ hw))
    · rcases List.mem_cons.1 hw with rfl | hw
      · exact fsym w (Or.inl (List.mem_append_right _ (by simp)))
      · exact fsym w (Or.inr hw)

theorem legacy_wfstate_of (net : Legacy.LNet)
    (hcl : ∀ n ∈ net, ∀ y ∈ n.neighbors, y ∈ Legacy.idsL net)
    (hadj : ∀ n ∈ net, n.neighbors.Nodup) :
    Legacy.WFState (Legacy.idsL net) net := by
  refine ⟨rfl, ?_⟩
  intro x
  cases h : Legacy.lookupL net x with
  | none => simp [Legacy.adjL, h]
  | some n =>
    have hn : n ∈ net := lookupL_mem h
    have : Legacy.adjL net x = n.neighbors := by
      unfold Legacy.adjL; rw [h]; rfl
    rw [this]
    exact ⟨hadj n hn, fun y hy => hcl n hn y hy⟩

theorem legacy_validate_of_sym (net : Legacy.LNet)
    (hnd : (Legacy.idsL net).Nodup)
    (hcl : ∀ x : String, ∀ y ∈ Legacy.adjL net x, y ∈ Legacy.idsL net)
    (hsym : ∀ x ∈ Legacy.idsL net, Legacy.SymAt net x) :
    Legacy.validate_bidirectional_connections net = true := by
  unfold Legacy.validate_bidirectional_connections
  rw [List.all_eq_true]
  intro n hn
  rw [List.all_eq_true]
  intro y hy
  have hadj : Legacy.adjL net n.eui64 = n.neighbors := adjL_eq_neighbors hnd hn
  have hyadj : y ∈ Legacy.adjL net n.eui64 := by rw [hadj]; exact hy
  have hxin : n.eui64 ∈ Legacy.idsL net := List.mem_map_of_mem _ hn
  have hrecip : n.eui64 ∈ Legacy.adjL net y := hsym n.eui64 hxin y hyadj
  have hyids : y ∈ Legacy.idsL net := hcl n.eui64 y hyadj
  obtain ⟨m, hm⟩ := Option.isSome_iff_exists.1 ((lookupL_isSome_iff net y).2 hyids)
  have hma : Legacy.adjL net y = m.neighbors := by
    unfold Legacy.adjL; rw [hm]; rfl
  simp only [hm]
  rw [hma] at hrecip
  exact List.elem_eq_true_of_mem hrecip

theorem legacy_validate_after_fix (net : Legacy.LNet)
    (hnd : (Legacy.idsL net).Nodup)
    (hcl : ∀ n ∈ net, ∀ y ∈ n.neighbors, y ∈ Legacy.idsL net)
    (hadj : ∀ n ∈ net, n.neighbors.Nodup) :
    Legacy.validate_bidirectional_connections
      (Legacy.fix_bidirectional_connections net).1 = true := by
  have hwf0 := legacy_wfstate_of net hcl hadj
  obtain ⟨fwf, fsym⟩ := fix_outer_spec (Legacy.idsL net) (Legacy.idsL net) []
    (net, 0) hwf0 (fun x hx => hx) hnd (by simp) (by simp)
  have hres : (Legacy.fix_bidirectional_connections net).1
      = ((Legacy.idsL net).foldl Legacy.fixNode (net, 0)).1 := rfl
  rw [hres]
  apply legacy_validate_of_sym
  · rw [fwf.1]; exact hnd
  · intro x y hy
    rw [fwf.1]
    exact (fwf.2 x).2 y hy
  · intro x hx
    rw [fwf.1] at hx
    exact fsym x (Or.inr hx)

theorem mem_neighborsOf (g : G.Graph) (x y : String) :
    y ∈ G.neighborsOf g x ↔
      ∃ e ∈ g.edges, (e.u = x ∧ e.v = y) ∨ (e.v = x ∧ e.u = y) := by
  unfold G.neighborsOf
  rw [List.mem_filterMap]
  constructor
  · rintro ⟨e, he, hsome⟩
    by_cases hu : (e.u == x) = true
    · rw [if_pos hu] at hsome
      exact ⟨e, he, Or.inl ⟨by simpa using hu, Option.some_inj.1 hsome⟩⟩
    · rw [if_neg hu] at hsome
      by_cases hv : (e.v == x) = true
      · rw [if_pos hv] at hsome
        exact ⟨e, he, Or.inr ⟨by simpa using hv, Option.some_inj.1 hsome⟩⟩
      · rw [if_neg hv] at hsome
        exact absurd hsome (by simp)
  · rintro ⟨e, he, (⟨h1, h2⟩ | ⟨h1, h2⟩)⟩
    · exact ⟨e, he, by simp [h1, h2]⟩
    · refine ⟨e, he, ?_⟩
      by_cases hu : (e.u == x) = true
      · have hux : e.u = x := by simpa using hu
        rw [if_pos hu]
        rw [h1, ← hux, h2]
      · rw [if_neg hu, if_pos (by simp [h1])]
        rw [h2]

theorem mem_neighborsOf_iff_hasEdge (g : G.Graph) (x y : String) :
    y ∈ G.neighborsOf g x ↔ G.hasEdge g x y = true := by
  rw [mem_neighborsOf, hasEdge_iff]
  constructor
  · rintro ⟨e, he, (⟨h1, h2⟩ | ⟨h1, h2⟩)⟩
    · exact ⟨e, he, Or.inl ⟨h1, h2⟩⟩
    · exact ⟨e, he, Or.inr ⟨h2, h1⟩⟩
  · rintro ⟨e, he, (⟨h1, h2⟩ | ⟨h1, h2⟩)⟩
    · exact ⟨e, he, Or.inl ⟨h1, h2⟩⟩
    · exact ⟨e, he, Or.inr ⟨h2, h1⟩⟩

theorem g_validate_always (g : G.Graph) :
    G.validate_bidirectional_connections g = true := by
  unfold G.validate_bidirectional_connections
  rw [Bool.and_eq_true]
  constructor
  · rw [List.all_eq_true]
    intro n hn
    rw [List.all_eq_true]
    intro y hy
    have hsym : n.eui64 ∈ G.neighborsOf g y := by
      rw [mem_neighborsOf_iff_hasEdge]
      have := (mem_neighborsOf_iff_hasEdge g n.eui64 y).1 hy
      rw [hasEdge_iff] at this ⊢
      obtain ⟨e, he, hor⟩ := this
      rcases hor with ⟨h1, h2⟩ | ⟨h1, h2⟩
      · exact ⟨e, he, Or.inr ⟨h1, h2⟩⟩
      · exact ⟨e, he, Or.inl ⟨h1, h2⟩⟩
    exact List.elem_eq_true_of_mem hsym
  · rw [List.all_eq_true]
    intro n _
    unfold G.sameSet
    rw [Bool.and_eq_true]
    constructor <;>
      (rw [List.all_eq_true]; intro y hy; exact List.elem_eq_true_of_mem hy)

/-! ## C2: after rebuild or repair, validate returns true -/

/-- C2: in the legacy adjacency-list representation, both a full rebuild
(`update_all_connections`) and a repair pass
(`fix_bidirectional_connections`) leave every recorded connection
symmetric, so `validate_bidirectional_connections` returns `true`
(the repair statement uses the data-model well-formedness of a network:
unique ids, neighbor references to members, duplicate-free lists).  In the
current graph representation, `validate_bidirectional_connections` is true
of every state — the undirected edge set is inherently symmetric and node
objects derive their neighbor lists from it — so it is true after rebuild
or repair there as well. -/
theorem C2_validate_after_rebuild_or_repair :
    (∀ net : Legacy.LNet, (Legacy.idsL net).Nodup →
      Legacy.validate_bidirectional_connections
        (Legacy.update_all_connections net) = true)
    ∧ (∀ net : Legacy.LNet, (Legacy.idsL net).Nodup →
      (∀ n ∈ net, ∀ y ∈ n.neighbors, y ∈ Legacy.idsL net) →
      (∀ n ∈ net, n.neighbors.Nodup) →
      Legacy.validate_bidirectional_connections
        (Legacy.fix_bidirectional_connections net).1 = true)
    ∧ (∀ g : G.Graph, G.validate_bidirectional_connections g = true) :=
  ⟨legacy_validate_after_update, legacy_validate_after_fix,
    g_validate_always⟩

theorem C2_validate_after_rebuild_or_repair_witness :
    Legacy.validate_bidirectional_connections
      (Legacy.fix_bidirectional_connections
        [⟨⟨"A", 0, 0, 10⟩, ["B"]⟩, ⟨⟨"B", 6, 0, 1⟩, []⟩]).1 = true :=
  C2_validate_after_rebuild_or_repair.2.1
    [⟨⟨"A", 0, 0, 10⟩, ["B"]⟩, ⟨⟨"B", 6, 0, 1⟩, []⟩]
    (by decide) (by decide) (by decide)

/-! ## Generic fold lemmas -/

theorem foldl_preserve {α β : Type} (f : β → α → β) (P : β → Prop) :
    ∀ (l : List α) (acc : β), P acc → (∀ b x, P b → P (f b x)) →
      P (l.foldl f acc) := by
  intro l
  induction l with
  | nil => intro acc h _; exact h
  | cons x xs ih =>
    intro acc h hstep
    exact ih (f acc x) (hstep acc x h) hstep

theorem foldl_achieves {α β : Type} (f : β → α → β) (P Q : β → Prop) (x₀ : α)
    (hQ : ∀ b x, Q b → Q (f b x))
    (hP : ∀ b x, P b → P (f b x))
    (hhit : ∀ b, Q b → P (f b x₀)) :
    ∀ (l : List α) (acc : β), x₀ ∈ l → Q acc → P (l.foldl f acc) := by
  intro l
  induction l with
  | nil => intro acc h _; simp at h
  | cons x xs ih =>
    intro acc hmem hq
    rcases List.mem_cons.1 hmem with rfl | hmem'
    · rw [List.foldl_cons]
      exact foldl_preserve f P xs _ (hhit acc hq) hP
    · rw [List.foldl_cons]
      exact ih (f acc x) hmem' (hQ acc x hq)

/-! ## Lemmas about graph edges and lookups -/

theorem hasEdge_comm (g : G.Graph) (a b : String) :
    G.hasEdge g a b = G.hasEdge g b a := by
  cases h : G.hasEdge g b a with
  | true =>
    obtain ⟨e, he, hor⟩ := (hasEdge_iff g b a).1 h
    apply (hasEdge_iff g a b).2
    rcases hor with ⟨h1, h2⟩ | ⟨h1, h2⟩
    · exact ⟨e, he, Or.inr ⟨h1, h2⟩⟩
    · exact ⟨e, he, Or.inl ⟨h1, h2⟩⟩
  | false =>
    apply Bool.eq_false_iff.2
    intro hcon
    obtain ⟨e, he, hor⟩ := (hasEdge_iff g a b).1 hcon
    have : G.hasEdge g b a = true := by
      apply (hasEdge_iff g b a).2
      rcases hor with ⟨h1, h2⟩ | ⟨h1, h2⟩
      · exact ⟨e, he, Or.inr ⟨h1, h2⟩⟩
      · exact ⟨e, he, Or.inl ⟨h1, h2⟩⟩
    rw [h] at this
    exact Bool.false_ne_true this

theorem hasEdge_addEdge_iff (g : G.Graph) (a b x y : String) (w : ℚ) :
    G.hasEdge (G.addEdge g a b w) x y = true ↔
      G.hasEdge g x y = true ∨ ((a = x ∧ b = y) ∨ (a = y ∧ b = x)) := by
  rw [hasEdge_iff, hasEdge_iff]
  unfold G.addEdge
  constructor
  · rintro ⟨e, he, hor⟩
    rcases List.mem_append.1 he with he' | he'
    · exact Or.inl ⟨e, he', hor⟩
    · rw [List.mem_singleton.1 he'] at hor
      rcases hor with ⟨h1, h2⟩ | ⟨h1, h2⟩
      · exact Or.inr (Or.inl ⟨h1, h2⟩)
      · exact Or.inr (Or.inr ⟨h1, h2⟩)
  · rintro (⟨e, he, hor⟩ | (⟨h1, h2⟩ | ⟨h1, h2⟩))
    · exact ⟨e, List.mem_append_left _ he, hor⟩
    · exact ⟨⟨a, b, w⟩, List.mem_append_right _ (by simp), Or.inl ⟨h1, h2⟩⟩
    · exact ⟨⟨a, b, w⟩, List.mem_append_right _ (by simp), Or.inr ⟨h1, h2⟩⟩

theorem lookupG_eui {g : G.Graph} {x : String} {n : IoTNet.NodeData}
    (h : G.lookupG g x = some n) : n.eui64 = x := by
  have := List.find?_some h
  simpa using this

theorem lookupG_isSome_iff (g : G.Graph) (x : String) :
    (G.lookupG g x).isSome ↔ x ∈ G.idsG g := by
  unfold G.lookupG
  rw [List.find?_isSome]
  constructor
  · rintro ⟨n, hn, hbe⟩
    have hne : n.eui64 = x := by simpa using hbe
    exact hne ▸ List.mem_map_of_mem _ hn
  · intro hx
    rcases List.mem_map.1 hx with ⟨n, hn, he⟩
    exact ⟨n, hn, by simp [he]⟩

/-! ## The graph-representation repair pass is a no-op -/

theorem g_fix_inner_id (nid : String) (nd : IoTNet.NodeData) :
    ∀ (ys : List String) (acc : G.Graph × ℕ),
      (∀ y ∈ ys, G.hasEdge acc.1 nid y = true) →
      ys.foldl (G.fixStepG nid nd) acc = acc := by
  intro ys
  induction ys with
  | nil => intro acc _; rfl
  | cons y ys ih =>
    intro acc hall
    have hy : G.hasEdge acc.1 nid y = true := hall y (List.mem_cons_self _ _)
    have hmem : nid ∈ G.neighborsOf acc.1 y := by
      rw [mem_neighborsOf_iff_hasEdge, hasEdge_comm]
      exact hy
    have hstep : G.fixStepG nid nd acc y = acc := by
      unfold G.fixStepG
      rw [if_pos (List.elem_eq_true_of_mem hmem)]
    rw [List.foldl_cons, hstep]
    exact ih acc (fun z hz => hall z (List.mem_cons_of_mem _ hz))

theorem g_fix_identity (g : G.Graph) :
    G.fix_bidirectional_connections g = (g, 0) := by
  unfold G.fix_bidirectional_connections
  have hstep : ∀ (acc : G.Graph × ℕ) (n : IoTNet.NodeData),
      (G.neighborsOf acc.1 n.eui64).foldl (G.fixStepG n.eui64 n) acc = acc := by
    intro acc n
    apply g_fix_inner_id
    intro y hy
    exact (mem_neighborsOf_iff_hasEdge acc.1 n.eui64 y).1 hy
  have : ∀ (ns : List IoTNet.NodeData) (acc : G.Graph × ℕ),
      ns.foldl (fun acc n =>
        (G.neighborsOf acc.1 n.eui64).foldl (G.fixStepG n.eui64 n) acc) acc = acc := by
    intro ns
    induction ns with
    | nil => intro acc; rfl
    | cons n ns ih =>
      intro acc
      rw [List.foldl_cons, hstep acc n]
      exact ih acc
  exact this g.nodeList (g, 0)

/-! ## The loader's second pass (reachable only from an empty file) -/

theorem loadEdgeStep_nodeList (a : String) (acc : G.Graph) (bid : String) :
    (G.loadEdgeStep a acc bid).nodeList = acc.nodeList := by
  unfold G.loadEdgeStep
  cases G.lookupG acc a with
  | none => rfl
  | some na =>
    cases G.lookupG acc bid with
    | none => rfl
    | some nb =>
      dsimp only
      split <;> rfl

theorem loadEdgeStep_hasEdge_mono (a : String) (acc : G.Graph) (bid x y : String)
    (h : G.hasEdge acc x y = true) :
    G.hasEdge (G.loadEdgeStep a acc bid) x y = true := by
  unfold G.loadEdgeStep
  cases G.lookupG acc a with
  | none => exact h
  | some na =>
    cases G.lookupG acc bid with
    | none => exact h
    | some nb =>
      dsimp only
      split
      · exact h
      · exact (hasEdge_addEdge_iff acc a bid x y _).2 (Or.inl h)

theorem foldl_preserve_mem {α β : Type} (f : β → α → β) (P : β → Prop) :
    ∀ (l : List α) (acc : β), P acc → (∀ b x, x ∈ l → P b → P (f b x)) →
      P (l.foldl f acc) := by
  intro l
  induction l with
  | nil => intro acc h _; exact h
  | cons x xs ih =>
    intro acc h hstep
    exact ih (f acc x) (hstep acc x (List.mem_cons_self _ _) h)
      (fun b z hz hb => hstep b z (List.mem_cons_of_mem _ hz) hb)

/-! ## C3: the load path of the packaged implementation raises -/

theorem loadPass1_eq_none_iff (ds : List G.SavedNode) :
    G.loadPass1 ds = none ↔ ds ≠ [] := by
  cases ds with
  | nil =>
    constructor
    · intro h
      exact Option.noConfusion h
    · intro h
      exact absurd rfl h
  | cons d rest =>
    constructor
    · intro _
      simp
    · intro _
      rfl

/-- C3 (failing-input evaluation): `load_from_file` cannot reproduce any
nonempty network: its first pass calls `IoTNode.from_dict(node_data)`
(`core/network.py` line 190) without the `graph` argument the classmethod
requires (`core/node.py` line 176), so the call raises `TypeError` on the
very first record — `load(save(network))` crashes for every network with at
least one node, and only the empty network round-trips. -/
theorem C3_round_trip_crashes (g : G.Graph) :
    (G.load_from_dict (G.to_dict g) = none ↔ g.nodeList ≠ [])
    ∧ G.load_from_dict ([] : List G.SavedNode)
        = some (⟨[], []⟩ : G.Graph) := by
  constructor
  · unfold G.load_from_dict
    rw [Option.map_eq_none']
    rw [loadPass1_eq_none_iff]
    unfold G.to_dict
    rw [ne_eq, ne_eq, List.map_eq_nil_iff]
  · rfl

/-! ## C4: the all-pairs computation does not reset state between sources -/

/-- C4 (failing-input evaluation): on the two-node network `A — B`,
`calculate_paths` (which never resets the shared `distance`/`previous_nodes`
dictionaries between source iterations) finishes with `distance[A] = 0` and
`previous_nodes[A] = None` even though its last source iteration was `B`,
because the stale `distance[A] = 0` from the `A` iteration blocks every
relaxation; the individual point query `calculate_paths_from_source(B)`
resets first and correctly yields `distance[A] = 1` with predecessor `B`.
The two computations therefore disagree for the pair `(B, A)`. -/
theorem C4_all_pairs_vs_point_query_disagree :
    PF.calculate_paths [⟨"A", ["B"]⟩, ⟨"B", ["A"]⟩]
        = some ([("A", some 0), ("B", some 0)], [("A", none), ("B", some "A")])
    ∧ PF.calculate_paths_from_source [⟨"A", ["B"]⟩, ⟨"B", ["A"]⟩] "B"
        = some ([("A", some 1), ("B", some 0)], [("A", some "B"), ("B", none)]) :=
  ⟨rfl, rfl⟩

/-! ## Counterexample evaluations for C5 and C8 -/

/-- C5 counterexample: querying with a source that is not in the network
(and a destination that is) does NOT raise — the code silently creates
`distance[source] = 0` and returns the no-path result `(None, inf)` —
contradicting the claim that a missing source or destination raises. -/
theorem C5_counterexample_missing_source_no_raise :
    PF.find_path [⟨"D", []⟩] "S" "D" = some (none, none) := rfl

/-- C8 counterexample: for the two-node edgeless network, the mapping
produced by `calculate_paths_from_source "A"` contains the unreachable node
`B` as a key, bound to the sentinel `inf` (`none` here) — contradicting the
claim that unreachable nodes are absent from the mapping. -/
theorem C8_counterexample_unreachable_present_with_inf :
    PF.calculate_paths_from_source [⟨"A", []⟩, ⟨"B", []⟩] "A"
      = some ([("A", some 0), ("B", none)], [("A", none), ("B", none)]) := rfl

/-! ## Dictionary lemmas -/

theorem lookup_upd_self {β : Type} (m : List (String × β)) (k : String) (v : β) :
    (upd m k v).lookup k = some v := by
  induction m with
  | nil => simp [upd, List.lookup]
  | cons p rest ih =>
    by_cases hpk : p.1 = k
    · simp [upd, hpk, List.lookup]
    · have h1 : (p.1 == k) = false := beq_eq_false_iff_ne.2 hpk
      have h2 : (k == p.1) = false := beq_eq_false_iff_ne.2 (Ne.symm hpk)
      simp only [upd, h1, Bool.false_eq_true, if_false, List.lookup, h2]
      exact ih

theorem lookup_upd_ne {β : Type} (m : List (String × β)) (k k' : String) (v : β)
    (h : k' ≠ k) : (upd m k v).lookup k' = m.lookup k' := by
  induction m with
  | nil =>
    simp [upd, List.lookup, beq_eq_false_iff_ne.2 h]
  | cons p rest ih =>
    by_cases hpk : p.1 = k
    · have h1 : (p.1 == k) = true := by rw [hpk]; simp
      have h2 : (k' == k) = false := beq_eq_false_iff_ne.2 h
      have h3 : (k' == p.1) = false := by rw [hpk]; exact h2
      simp only [upd, h1, if_true, List.lookup, h2, h3]
    · have h1 : (p.1 == k) = false := beq_eq_false_iff_ne.2 hpk
      simp only [upd, h1, Bool.false_eq_true, if_false, List.lookup]
      cases hpq : (k' == p.1) with
      | true => rfl
      | false => exact ih

theorem keysOf_upd {β : Type} (m : List (String × β)) (k : String) (v : β) :
    PF.keysOf (upd m k v)
      = if k ∈ PF.keysOf m then PF.keysOf m else PF.keysOf m ++ [k] := by
  induction m with
  | nil => simp [upd, PF.keysOf]
  | cons p rest ih =>
    by_cases hp : (p.1 == k) = true
    · have hpk : p.1 = k := by simpa using hp
      rw [if_pos (by rw [← hpk]; exact List.mem_cons_self _ _)]
      simp [upd, hp, PF.keysOf, hpk]
    · have hp' : (p.1 == k) = false := by simpa using hp
      have hpk : p.1 ≠ k := by simpa using hp'
      simp only [upd, hp', Bool.false_eq_true, if_false]
      by_cases hk : k ∈ PF.keysOf rest
      · rw [if_pos (by exact List.mem_cons_of_mem _ hk)]
        show p.1 :: PF.keysOf (upd rest k v) = _
        rw [ih, if_pos hk]
        rfl
      · rw [if_neg (by
          intro hc
          rcases List.mem_cons.1 hc with hc | hc
          · exact hpk hc.symm
          · exact hk hc)]
        show p.1 :: PF.keysOf (upd rest k v) = _
        rw [ih, if_neg hk]
        rfl

theorem lookup_isSome_iff_keys {β : Type} (m : List (String × β)) (k : String) :
    (m.lookup k).isSome ↔ k ∈ PF.keysOf m := by
  induction m with
  | nil => simp [List.lookup, PF.keysOf]
  | cons p rest ih =>
    cases hp : (k == p.1) with
    | true =>
      have hpk : k = p.1 := by simpa using hp
      simp [List.lookup, hp, PF.keysOf, hpk]
    | false =>
      have hpk : k ≠ p.1 := by simpa using hp
      simp only [List.lookup, hp, PF.keysOf, List.map, List.mem_cons]
      rw [ih]
      constructor
      · intro h; exact Or.inr h
      · rintro (h | h)
        · exact absurd h hpk
        · exact h

theorem fold_upd_spec {β : Type} (v₀ : β) :
    ∀ (ks : List String) (acc : List (String × β)),
      (∀ k ∈ ks, k ∉ PF.keysOf acc) → ks.Nodup →
      PF.keysOf (ks.foldl (fun m k => upd m k v₀) acc) = PF.keysOf acc ++ ks
      ∧ ∀ x, (ks.foldl (fun m k => upd m k v₀) acc).lookup x
          = if x ∈ ks then some v₀ else acc.lookup x := by
  intro ks
  induction ks with
  | nil =>
    intro acc _ _
    simp
  | cons k ks ih =>
    intro acc hdisj hnd
    have hkn : k ∉ PF.keysOf acc := hdisj k (List.mem_cons_self _ _)
    have hkeys : PF.keysOf (upd acc k v₀) = PF.keysOf acc ++ [k] := by
      rw [keysOf_upd, if_neg hkn]
    have hdisj' : ∀ k' ∈ ks, k' ∉ PF.keysOf (upd acc k v₀) := by
      intro k' hk' hc
      rw [hkeys] at hc
      rcases List.mem_append.1 hc with hc | hc
      · exact hdisj k' (List.mem_cons_of_mem _ hk') hc
      · rw [List.mem_singleton.1 hc] at hk'
        exact (List.nodup_cons.1 hnd).1 hk'
    obtain ⟨ihk, ihl⟩ := ih (upd acc k v₀) hdisj' (List.nodup_cons.1 hnd).2
    rw [List.foldl_cons]
    constructor
    · rw [ihk, hkeys]
      simp
    · intro x
      rw [ihl x]
      by_cases hx : x ∈ ks
      · rw [if_pos hx, if_pos (List.mem_cons_of_mem _ hx)]
      · rw [if_neg hx]
        by_cases hxk : x = k
        · subst hxk
          rw [if_pos (List.mem_cons_self _ _), lookup_upd_self]
        · rw [if_neg (by
            intro hc
            rcases List.mem_cons.1 hc with hc | hc
            · exact hxk hc
            · exact hx hc)]
          exact lookup_upd_ne acc k x v₀ hxk

theorem initDist_spec (net : PF.Net) (hnd : (PF.idsP net).Nodup) :
    PF.keysOf (PF.initDist net) = PF.idsP net
    ∧ ∀ x, (PF.initDist net).lookup x
        = if x ∈ PF.idsP net then some none else none := by
  have hfm : PF.initDist net
      = (PF.idsP net).foldl (fun m k => upd m k none) [] := by
    unfold PF.initDist PF.idsP
    rw [List.foldl_map]
  obtain ⟨h1, h2⟩ := fold_upd_spec (none : Option ℕ) (PF.idsP net) []
    (by intro k _ hc; simp [PF.keysOf] at hc) hnd
  rw [hfm]
  exact ⟨by rw [h1]; rfl, fun x => by rw [h2 x]; simp [List.lookup]⟩

theorem initPrev_spec (net : PF.Net) (hnd : (PF.idsP net).Nodup) :
    PF.keysOf (PF.initPrev net) = PF.idsP net
    ∧ ∀ x, (PF.initPrev net).lookup x
        = if x ∈ PF.idsP net then some none else none := by
  have hfm : PF.initPrev net
      = (PF.idsP net).foldl (fun m k => upd m k none) [] := by
    unfold PF.initPrev PF.idsP
    rw [List.foldl_map]
  obtain ⟨h1, h2⟩ := fold_upd_spec (none : Option String) (PF.idsP net) []
    (by intro k _ hc; simp [PF.keysOf] at hc) hnd
  rw [hfm]
  exact ⟨by rw [h1]; rfl, fun x => by rw [h2 x]; simp [List.lookup]⟩

/-! ## Heap-pop lemmas -/

theorem entryLT_true_le {e f : ℕ × String} (h : PF.entryLT e f = true) :
    e.1 ≤ f.1 := by
  unfold PF.entryLT at h
  rcases Bool.or_eq_true_iff.1 h with h | h
  · exact Nat.le_of_lt (by simpa using h)
  · rcases Bool.and_eq_true_iff.1 h with ⟨h1, _⟩
    exact Nat.le_of_eq (by simpa using h1)

theorem entryLT_false_le {e f : ℕ × String} (h : PF.entryLT e f = false) :
    f.1 ≤ e.1 := by
  unfold PF.entryLT at h
  rcases Bool.or_eq_false_iff.1 h with ⟨h1, _⟩
  exact Nat.le_of_not_lt (by simpa using h1)

theorem minFold_spec (rest : PF.Queue) :
    ∀ e : ℕ × String,
      (rest.foldl (fun m f => if PF.entryLT f m then f else m) e) ∈ e :: rest
      ∧ ∀ f ∈ e :: rest,
        (rest.foldl (fun m f => if PF.entryLT f m then f else m) e).1 ≤ f.1 := by
  induction rest with
  | nil =>
    intro e
    refine ⟨List.mem_cons_self _ _, ?_⟩
    intro f hf
    rw [List.mem_singleton.1 hf]
    exact Nat.le_refl _
  | cons f' rest ih =>
    intro e
    rw [List.foldl_cons]
    by_cases hlt : PF.entryLT f' e = true
    · rw [if_pos hlt]
      obtain ⟨hmem, hmin⟩ := ih f'
      constructor
      · rcases List.mem_cons.1 hmem with h | h
        · rw [h]; exact List.mem_cons_of_mem _ (List.mem_cons_self _ _)
        · exact List.mem_cons_of_mem _ (List.mem_cons_of_mem _ h)
      · intro f hf
        rcases List.mem_cons.1 hf with rfl | hf'
        · exact Nat.le_trans (hmin f' (List.mem_cons_self _ _))
            (entryLT_true_le hlt)
        · rcases List.mem_cons.1 hf' with rfl | hf''
          · exact hmin f (List.mem_cons_self _ _)
          · exact hmin f (List.mem_cons_of_mem _ hf'')
    · rw [if_neg hlt]
      obtain ⟨hmem, hmin⟩ := ih e
      constructor
      · rcases List.mem_cons.1 hmem with h | h
        · rw [h]; exact List.mem_cons_self _ _
        · exact List.mem_cons_of_mem _ (List.mem_cons_of_mem _ h)
      · intro f hf
        rcases List.mem_cons.1 hf with rfl | hf'
        · exact hmin f (List.mem_cons_self _ _)
        · rcases List.mem_cons.1 hf' with rfl | hf''
          · exact Nat.le_trans (hmin e (List.mem_cons_self _ _))
              (entryLT_false_le (by simpa using hlt))
          · exact hmin f (List.mem_cons_of_mem _ hf'')

theorem popMin_spec {q : PF.Queue} {m : ℕ × String} {q' : PF.Queue}
    (h : PF.popMin q = some (m, q')) :
    m ∈ q ∧ q' = q.erase m ∧ ∀ e ∈ q, m.1 ≤ e.1 := by
  cases q with
  | nil => simp [PF.popMin] at h
  | cons e rest =>
    unfold PF.popMin at h
    obtain ⟨hm, hq⟩ := Prod.mk.injEq .. ▸ Option.some_inj.1 h
    obtain ⟨hmem, hmin⟩ := minFold_spec rest e
    subst hm
    subst hq
    exact ⟨hmem, rfl, hmin⟩

theorem popMin_none {q : PF.Queue} (h : PF.popMin q = none) : q = [] := by
  cases q with
  | nil => rfl
  | cons e rest => simp [PF.popMin] at h

/-! ## Settledness and the potential -/

theorem settledB_iff (dist : PF.DistMap) (q : PF.Queue) (v : String) :
    PF.settledB dist q v = true ↔
      ∃ k, dist.lookup v = some (some k) ∧ ∀ e ∈ q, e.2 = v → k < e.1 := by
  unfold PF.settledB
  cases h : dist.lookup v with
  | none => simp
  | some dv =>
    cases dv with
    | none => simp
    | some k =>
      rw [List.all_eq_true]
      constructor
      · intro hall
        refine ⟨k, rfl, ?_⟩
        intro e he hev
        have := hall e he
        rcases Bool.or_eq_true_iff.1 this with hb | hb
        · have hb' : (e.2 == v) = false := by simpa using hb
          rw [hev] at hb'
          simp at hb'
        · simpa using hb
      · rintro ⟨k', hk', hlt⟩
        have hkk : k' = k := by
          have := Option.some_inj.1 hk'
          exact (Option.some_inj.1 this).symm
        subst hkk
        intro e he
        by_cases hev : e.2 = v
        · apply Bool.or_eq_true_iff.2
          exact Or.inr (by simpa using hlt e he hev)
        · apply Bool.or_eq_true_iff.2
          exact Or.inl (by simpa using hev)

theorem map_sum_le_pointwise {l : List String} {f f' : String → ℕ}
    (h : ∀ v ∈ l, f' v ≤ f v) : (l.map f').sum ≤ (l.map f).sum := by
  induction l with
  | nil => simp
  | cons x xs ih =>
    simp only [List.map_cons, List.sum_cons]
    exact Nat.add_le_add (h x (List.mem_cons_self _ _))
      (ih (fun v hv => h v (List.mem_cons_of_mem _ hv)))

theorem map_sum_special {l : List String} (hnd : l.Nodup) {u : String}
    (hu : u ∈ l) {f f' : String → ℕ}
    (h : ∀ v ∈ l, v ≠ u → f' v ≤ f v) (hu' : f' u = 0) :
    (l.map f').sum + f u ≤ (l.map f).sum := by
  have hperm : l.Perm (u :: l.erase u) := List.perm_cons_erase hu
  have hf : (l.map f).sum = ((u :: l.erase u).map f).sum :=
    List.Perm.sum_eq (List.Perm.map f hperm)
  have hf' : (l.map f').sum = ((u :: l.erase u).map f').sum :=
    List.Perm.sum_eq (List.Perm.map f' hperm)
  rw [hf, hf']
  simp only [List.map_cons, List.sum_cons, hu']
  rw [Nat.zero_add, Nat.add_comm]
  apply Nat.add_le_add_left
  apply map_sum_le_pointwise
  intro v hv
  have hvl := (hnd.mem_erase_iff).1 hv
  exact h v hvl.2 hvl.1

/-! ## Adjacency and key-list facts -/

theorem adjP_closed {net : PF.Net} (hwf : PF.WFNet net) (u : String) :
    ∀ nb ∈ PF.adjP net u, nb ∈ PF.idsP net := by
  intro nb hnb
  unfold PF.adjP at hnb
  cases h : net.find? (fun n => n.eui64 == u) with
  | none => rw [h] at hnb; simp at hnb
  | some n =>
    rw [h] at hnb
    exact hwf.closed n (List.mem_of_find?_eq_some h) nb hnb

theorem adjP_mem_ids {net : PF.Net} {u nb : String}
    (hnb : nb ∈ PF.adjP net u) : u ∈ PF.idsP net := by
  unfold PF.adjP at hnb
  cases h : net.find? (fun n => n.eui64 == u) with
  | none => rw [h] at hnb; simp at hnb
  | some n =>
    have hne : n.eui64 = u := by
      have := List.find?_some h
      simpa using this
    exact hne ▸ List.mem_map_of_mem _ (List.mem_of_find?_eq_some h)

theorem mem_keysListP {net : PF.Net} {s x : String} :
    x ∈ PF.keysListP net s ↔ x ∈ PF.idsP net ∨ x = s := by
  unfold PF.keysListP
  by_cases hs : s ∈ PF.idsP net
  · rw [if_pos hs]
    constructor
    · intro h; exact Or.inl h
    · rintro (h | rfl)
      · exact h
      · exact hs
  · rw [if_neg hs]
    constructor
    · intro h
      rcases List.mem_append.1 h with h | h
      · exact Or.inl h
      · exact Or.inr (List.mem_singleton.1 h)
    · rintro (h | rfl)
      · exact List.mem_append_left _ h
      · exact List.mem_append_right _ (by simp)

theorem keysListP_nodup {net : PF.Net} (hnd : (PF.idsP net).Nodup) (s : String) :
    (PF.keysListP net s).Nodup := by
  unfold PF.keysListP
  by_cases hs : s ∈ PF.idsP net
  · rw [if_pos hs]; exact hnd
  · rw [if_neg hs]
    rw [List.nodup_append]
    exact ⟨hnd, List.nodup_singleton _, by
      intro z hz hz'
      rw [List.mem_singleton.1 hz'] at hz
      exact hs hz⟩

theorem walkTo_endpoint {net : PF.Net} {s : String} (hwf : PF.WFNet net) :
    ∀ n v, PF.walkTo net s n v → v = s ∨ v ∈ PF.idsP net := by
  intro n
  induction n with
  | zero => intro v hv; exact Or.inl hv
  | succ n _ =>
    intro v hv
    obtain ⟨u, _, hadj⟩ := hv
    exact Or.inr (adjP_closed hwf u v hadj)

/-! ## The relaxation fold -/

theorem relaxAll_spec (net : PF.Net) (hwf : PF.WFNet net) (s u : String) (d : ℕ)
    (hu_walk : PF.walkTo net s d u) :
    ∀ (nbs : List String), (∀ nb ∈ nbs, nb ∈ PF.adjP net u) →
    ∀ (dist : PF.DistMap) (prev : PF.PrevMap) (q : PF.Queue),
      PF.MidInv net s u d dist prev q →
      ∃ dist' prev' q',
        nbs.foldlM (PF.relaxStep u d) (dist, prev, q) = some (dist', prev', q')
        ∧ PF.MidInv net s u d dist' prev' q'
        ∧ (∀ nb ∈ nbs, ∃ m, m ≤ d + 1 ∧ dist'.lookup nb = some (some m))
        ∧ (∀ v k, dist.lookup v = some (some k) → k ≤ d + 1 →
            dist'.lookup v = dist.lookup v)
        ∧ (∀ e ∈ q', e ∈ q ∨ e.1 = d + 1)
        ∧ q'.length ≤ q.length + nbs.length := by
  intro nbs
  induction nbs with
  | nil =>
    intro _ dist prev q hinv
    exact ⟨dist, prev, q, rfl, hinv, by simp, fun v k h _ => rfl,
      fun e he => Or.inl he, by simp⟩
  | cons nb nbs ih =>
    intro hsub dist prev q hinv
    have hadj : nb ∈ PF.adjP net u := hsub nb (List.mem_cons_self _ _)
    have hnbids : nb ∈ PF.idsP net := adjP_closed hwf u nb hadj
    have huids : u ∈ PF.idsP net := adjP_mem_ids hadj
    have hnbkeys : nb ∈ PF.keysOf dist := by
      rw [hinv.keysD]
      exact mem_keysListP.2 (Or.inl hnbids)
    obtain ⟨dv, hdv⟩ := Option.isSome_iff_exists.1
      ((lookup_isSome_iff_keys dist nb).2 hnbkeys)
    have hstep : PF.relaxStep u d (dist, prev, q) nb
        = if PF.ltD (d + 1) dv then
            some (upd dist nb (some (d + 1)), upd prev nb (some u),
              q ++ [(d + 1, nb)])
          else some (dist, prev, q) := by
      unfold PF.relaxStep
      rw [hdv]
    rw [List.foldlM_cons]
    by_cases hguard : PF.ltD (d + 1) dv = true
    · -- relax: a strictly better path to nb was found
      rw [hstep, if_pos hguard]
      have hnbu : nb ≠ u := by
        intro he
        rw [he, hinv.distU] at hdv
        have : dv = some d := Option.some_inj.1 hdv.symm
        rw [this] at hguard
        unfold PF.ltD at hguard
        simp at hguard
      have hnbs : nb ≠ s := by
        intro he
        rw [he, hinv.distS] at hdv
        have : dv = some 0 := Option.some_inj.1 hdv.symm
        rw [this] at hguard
        unfold PF.ltD at hguard
        simp at hguard
      have hlook : ∀ v, (upd dist nb (some (d + 1))).lookup v
          = if v = nb then some (some (d + 1)) else dist.lookup v := by
        intro v
        by_cases hv : v = nb
        · rw [if_pos hv, hv, lookup_upd_self]
        · rw [if_neg hv, lookup_upd_ne dist nb v _ hv]
      have hplook : ∀ v, (upd prev nb (some u)).lookup v
          = if v = nb then some (some u) else prev.lookup v := by
        intro v
        by_cases hv : v = nb
        · rw [if_pos hv, hv, lookup_upd_self]
        · rw [if_neg hv, lookup_upd_ne prev nb v _ hv]
      have hinv' : PF.MidInv net s u d (upd dist nb (some (d + 1)))
          (upd prev nb (some u)) (q ++ [(d + 1, nb)]) := by
        refine ⟨?_, ?_, ?_, ?_, ?_, ?_, ?_, ?_, ?_, ?_, ?_⟩
        · rw [keysOf_upd, if_pos hnbkeys]
          exact hinv.keysD
        · rw [keysOf_upd, if_pos (by rw [hinv.keysP]; exact hnbids)]
          exact hinv.keysP
        · rw [hlook s, if_neg hnbs.symm]
          exact hinv.distS
        · rw [hlook u, if_neg hnbu.symm]
          exact hinv.distU
        · intro e he
          rcases List.mem_append.1 he with he | he
          · obtain ⟨k, hk, hke⟩ := hinv.qDist e he
            by_cases hev : e.2 = nb
            · rw [hev] at hk
              rw [hdv] at hk
              have hdvk : dv = some k := Option.some_inj.1 hk
              rw [hdvk] at hguard
              have hdk : d + 1 < k := by
                unfold PF.ltD at hguard
                simpa using hguard
              refine ⟨d + 1, ?_, ?_⟩
              · rw [hev, hlook nb, if_pos rfl]
              · exact Nat.le_trans (Nat.le_of_lt hdk) hke
            · refine ⟨k, ?_, hke⟩
              rw [hlook e.2, if_neg hev]
              exact hk
          · rw [List.mem_singleton.1 he]
            exact ⟨d + 1, by rw [hlook nb]; simp, Nat.le_refl _⟩
        · intro e he
          rcases List.mem_append.1 he with he | he
          · exact hinv.qLB e he
          · rw [List.mem_singleton.1 he]
            exact Nat.le_succ d
        · rw [List.nodup_append]
          refine ⟨hinv.qNodup, List.nodup_singleton _, ?_⟩
          intro e he he'
          rw [List.mem_singleton.1 he'] at he
          obtain ⟨k, hk, hke⟩ := hinv.qDist (d + 1, nb) he
          rw [hdv] at hk
          have hdvk : dv = some k := Option.some_inj.1 hk
          rw [hdvk] at hguard
          have hdk : d + 1 < k := by
            unfold PF.ltD at hguard
            simpa using hguard
          exact Nat.lt_irrefl _ (Nat.lt_of_lt_of_le hdk hke)
        · intro e he hev
          rcases List.mem_append.1 he with he | he
          · exact hinv.qU e he hev
          · rw [List.mem_singleton.1 he] at hev ⊢
            exact absurd hev hnbu
        · intro v k hvu hk
          by_cases hv : v = nb
          · subst hv
            rw [hlook v, if_pos rfl] at hk
            have : k = d + 1 :=
              (Option.some_inj.1 (Option.some_inj.1 hk)).symm
            subst this
            exact Or.inl (List.mem_append_right _ (by simp))
          · rw [hlook v, if_neg hv] at hk
            rcases hinv.main v k hvu hk with hl | ⟨hkd, hrel⟩
            · exact Or.inl (List.mem_append_left _ hl)
            · refine Or.inr ⟨hkd, ?_⟩
              intro nb' hnb'
              obtain ⟨m, hmle, hm⟩ := hrel nb' hnb'
              by_cases hv' : nb' = nb
              · subst hv'
                rw [hdv] at hm
                have hdvk : dv = some m := Option.some_inj.1 hm
                rw [hdvk] at hguard
                have hdm : d + 1 < m := by
                  unfold PF.ltD at hguard
                  simpa using hguard
                refine ⟨d + 1, Nat.le_trans (Nat.le_of_lt hdm) hmle, ?_⟩
                rw [hlook nb', if_pos rfl]
              · refine ⟨m, hmle, ?_⟩
                rw [hlook nb', if_neg hv']
                exact hm
        · intro v k hk
          by_cases hv : v = nb
          · subst hv
            rw [hlook v, if_pos rfl] at hk
            have : k = d + 1 :=
              (Option.some_inj.1 (Option.some_inj.1 hk)).symm
            subst this
            exact ⟨u, hu_walk, hadj⟩
          · rw [hlook v, if_neg hv] at hk
            exact hinv.sound v k hk
        · intro v u' hvu'
          by_cases hv : v = nb
          · subst hv
            rw [hplook v, if_pos rfl] at hvu'
            have huu : u' = u :=
              (Option.some_inj.1 (Option.some_inj.1 hvu')).symm
            subst huu
            refine ⟨d, d + 1, ?_, ?_, Nat.lt_succ_self d, ?_⟩
            · rw [hlook u', if_neg hnbu.symm]
              exact hinv.distU
            · rw [hlook v, if_pos rfl]
            · rw [lookup_isSome_iff_keys, keysOf_upd,
                if_pos (by rw [hinv.keysP]; exact hnbids), hinv.keysP]
              exact huids
          · rw [hplook v, if_neg hv] at hvu'
            obtain ⟨ku, kv, hku, hkv, hlt, hsm⟩ := hinv.prevOk v u' hvu'
            have hkv' : (upd dist nb (some (d + 1))).lookup v
                = some (some kv) := by
              rw [hlook v, if_neg hv]
              exact hkv
            have hsm' : ((upd prev nb (some u)).lookup u').isSome := by
              rw [lookup_isSome_iff_keys, keysOf_upd,
                if_pos (by rw [hinv.keysP]; exact hnbids)]
              rw [← lookup_isSome_iff_keys]
              exact hsm
            by_cases hu' : u' = nb
            · subst hu'
              rw [hdv] at hku
              have hdvk : dv = some ku := Option.some_inj.1 hku
              rw [hdvk] at hguard
              have hdku : d + 1 < ku := by
                unfold PF.ltD at hguard
                simpa using hguard
              refine ⟨d + 1, kv, ?_, hkv', Nat.lt_trans hdku hlt, hsm'⟩
              rw [hlook u', if_pos rfl]
            · refine ⟨ku, kv, ?_, hkv', hlt, hsm'⟩
              rw [hlook u', if_neg hu']
              exact hku
      obtain ⟨dist', prev', q', hfold, hinvf, hnbsf, hmono, hqf, hlen⟩ :=
        ih (fun z hz => hsub z (List.mem_cons_of_mem _ hz))
          (upd dist nb (some (d + 1))) (upd prev nb (some u))
          (q ++ [(d + 1, nb)]) hinv'
      refine ⟨dist', prev', q', ?_, hinvf, ?_, ?_, ?_, ?_⟩
      · simpa using hfold
      · intro z hz
        rcases List.mem_cons.1 hz with rfl | hz'
        · refine ⟨d + 1, Nat.le_refl _, ?_⟩
          have := hmono z (d + 1) (by rw [hlook z, if_pos rfl]) (Nat.le_refl _)
          rw [this, hlook z, if_pos rfl]
        · exact hnbsf z hz'
      · intro v k hk hkle
        have hvnb : v ≠ nb := by
          intro he
          subst he
          rw [hdv] at hk
          have hdvk : dv = some k := Option.some_inj.1 hk
          rw [hdvk] at hguard
          have : d + 1 < k := by
            unfold PF.ltD at hguard
            simpa using hguard
          exact Nat.lt_irrefl _ (Nat.lt_of_lt_of_le this hkle)
        have hmid : (upd dist nb (some (d + 1))).lookup v = some (some k) := by
          rw [hlook v, if_neg hvnb]
          exact hk
        have := hmono v k hmid hkle
        rw [this, hlook v, if_neg hvnb]
      · intro e he
        rcases hqf e he with he' | he'
        · rcases List.mem_append.1 he' with he'' | he''
          · exact Or.inl he''
          · rw [List.mem_singleton.1 he'']
            exact Or.inr rfl
        · exact Or.inr he'
      · simp only [List.length_append, List.length_cons,
          List.length_nil] at hlen ⊢
        omega
    · -- no improvement: the stored distance is already at most d + 1
      have hguard' : PF.ltD (d + 1) dv = false := by simpa using hguard
      rw [hstep, if_neg (by rw [hguard']; exact Bool.false_ne_true)]
      have hdvm : ∃ m, dv = some m ∧ m ≤ d + 1 := by
        cases dv with
        | none =>
          exfalso
          unfold PF.ltD at hguard'
          simp at hguard'
        | some m =>
          refine ⟨m, rfl, ?_⟩
          unfold PF.ltD at hguard'
          exact Nat.le_of_not_lt (by simpa using hguard')
      obtain ⟨dist', prev', q', hfold, hinvf, hnbsf, hmono, hqf, hlen⟩ :=
        ih (fun z hz => hsub z (List.mem_cons_of_mem _ hz)) dist prev q hinv
      refine ⟨dist', prev', q', by simpa using hfold, hinvf, ?_, hmono, hqf,
        by simp only [List.length_cons]; omega⟩
      intro z hz
      rcases List.mem_cons.1 hz with rfl | hz'
      · obtain ⟨m, hm, hmle⟩ := hdvm
        refine ⟨m, hmle, ?_⟩
        have hk : dist.lookup z = some (some m) := by rw [hdv, hm]
        have := hmono z m hk hmle
        rw [this]
        exact hk
      · exact hnbsf z hz'

/-! ## The queue loop -/

theorem loop_step (net : PF.Net) (fuel : ℕ) (dist : PF.DistMap)
    (prev : PF.PrevMap) (q : PF.Queue) :
    PF.loop net (fuel + 1) (dist, prev, q)
      = match PF.popMin q with
        | none => some (dist, prev)
        | some ((d, u), q') =>
          match dist.lookup u with
          | none => none
          | some du =>
            if PF.gtD d du then PF.loop net fuel (dist, prev, q')
            else
              match (PF.adjP net u).foldlM (PF.relaxStep u d) (dist, prev, q') with
              | none => none
              | some st' => PF.loop net fuel st' := rfl

theorem finalInv_of_empty (net : PF.Net) (s : String) (dist : PF.DistMap)
    (prev : PF.PrevMap) (L : ℕ) (hinv : PF.LoopInv net s dist prev [] L) :
    PF.FinalInv net s dist prev := by
  refine ⟨hinv.keysD, hinv.keysP, hinv.distS, ?_, hinv.sound, hinv.prevOk⟩
  intro v k hk nb hnb
  rcases hinv.main v k hk with hl | ⟨_, hrel⟩
  · simp at hl
  · obtain ⟨m, hm, hm'⟩ := hrel nb hnb
    exact ⟨m, hm, hm'⟩

theorem loop_spec (net : PF.Net) (hwf : PF.WFNet net) (s : String) :
    ∀ (fuel : ℕ) (dist : PF.DistMap) (prev : PF.PrevMap) (q : PF.Queue) (L : ℕ),
      PF.LoopInv net s dist prev q L →
      PF.phi net dist q < fuel →
      ∃ dist' prev', PF.loop net fuel (dist, prev, q) = some (dist', prev')
        ∧ PF.FinalInv net s dist' prev' := by
  intro fuel
  induction fuel with
  | zero =>
    intro dist prev q L _ hphi
    exact absurd hphi (Nat.not_lt_zero _)
  | succ fuel ih =>
    intro dist prev q L hinv hphi
    cases hpop : PF.popMin q with
    | none =>
      refine ⟨dist, prev, ?_, ?_⟩
      · rw [loop_step, hpop]
      · exact finalInv_of_empty net s dist prev L (popMin_none hpop ▸ hinv)
    | some mq =>
      obtain ⟨⟨d, u⟩, q'⟩ := mq
      obtain ⟨hmem, hq', hmin⟩ := popMin_spec hpop
      obtain ⟨k, hk, hkd⟩ := hinv.qDist (d, u) hmem
      have hLd : L ≤ d := hinv.qLB (d, u) hmem
      have hq'sub : ∀ e ∈ q', e ∈ q := by
        intro e he
        rw [hq'] at he
        exact List.mem_of_mem_erase he
      have hq'nodup : q'.Nodup := hq' ▸ hinv.qNodup.erase _
      have hq'len : q'.length = q.length - 1 := by
        rw [hq']
        exact List.length_erase_of_mem hmem
      have hqpos : 1 ≤ q.length := by
        cases q with
        | nil => simp at hmem
        | cons e rest => simp
      have hSmono : ∀ v, (if PF.settledB dist q' v then 0
            else (PF.adjP net v).length)
          ≤ (if PF.settledB dist q v then 0 else (PF.adjP net v).length) := by
        intro v
        by_cases hs : PF.settledB dist q v = true
        · obtain ⟨kv, hkv, hents⟩ := (settledB_iff dist q v).1 hs
          have hs' : PF.settledB dist q' v = true :=
            (settledB_iff dist q' v).2
              ⟨kv, hkv, fun e he hev => hents e (hq'sub e he) hev⟩
          rw [if_pos hs, if_pos hs']
        · rw [if_neg hs]
          split
          · exact Nat.zero_le _
          · exact Nat.le_refl _
      cases hgt : PF.gtD d (some k) with
      | true =>
        -- stale entry: d exceeds the current recorded distance, skip it
        have hkd' : k < d := by
          unfold PF.gtD at hgt
          simpa using hgt
        have hinv' : PF.LoopInv net s dist prev q' d := by
          refine ⟨hinv.keysD, hinv.keysP, hinv.distS, ?_, ?_, hq'nodup, ?_,
            hinv.sound, hinv.prevOk⟩
          · intro e he
            exact hinv.qDist e (hq'sub e he)
          · intro e he
            exact hmin e (hq'sub e he)
          · intro v k' hk'
            rcases hinv.main v k' hk' with hl | ⟨hkL, hrel⟩
            · left
              rw [hq']
              apply (List.mem_erase_of_ne ?_).2 hl
              intro he
              have h1 : v = u := congrArg Prod.snd he
              have h2 : k' = d := congrArg Prod.fst he
              subst h1
              rw [hk'] at hk
              have : k = k' := by
                have := Option.some_inj.1 hk
                exact (Option.some_inj.1 this).symm
              subst this
              subst h2
              exact Nat.lt_irrefl _ hkd'
            · exact Or.inr ⟨Nat.le_trans hkL hLd, hrel⟩
        have hphi' : PF.phi net dist q' < fuel := by
          have hS := @map_sum_le_pointwise
            (PF.keysOf dist)
            (fun v => if PF.settledB dist q v then 0
              else (PF.adjP net v).length)
            (fun v => if PF.settledB dist q' v then 0
              else (PF.adjP net v).length)
            (fun v _ => hSmono v)
          unfold PF.phi at hphi ⊢
          omega
        obtain ⟨dist', prev', hloop, hfin⟩ := ih dist prev q' d hinv' hphi'
        refine ⟨dist', prev', ?_, hfin⟩
        have hk2 : List.lookup u dist = some (some k) := hk
        rw [loop_step, hpop]
        simp only [hk2, hgt, if_true]
        exact hloop
      | false =>
        -- fresh entry: d equals the recorded distance, expand u
        have hdk : d ≤ k := by
          unfold PF.gtD at hgt
          exact Nat.le_of_not_lt (by simpa using hgt)
        have hkdeq : k = d := Nat.le_antisymm hkd hdk
        subst hkdeq
        have hukeys : u ∈ PF.keysOf dist :=
          (lookup_isSome_iff_keys dist u).1 (by rw [hk]; rfl)
        have hmid : PF.MidInv net s u k dist prev q' := by
          refine ⟨hinv.keysD, hinv.keysP, hinv.distS, hk, ?_, ?_, hq'nodup,
            ?_, ?_, hinv.sound, hinv.prevOk⟩
          · intro e he
            exact hinv.qDist e (hq'sub e he)
          · intro e he
            exact hmin e (hq'sub e he)
          · intro e he hev
            obtain ⟨k2, hk2, hk2e⟩ := hinv.qDist e (hq'sub e he)
            rw [hev, hk] at hk2
            have hk2k : k2 = k := by
              have := Option.some_inj.1 hk2
              exact (Option.some_inj.1 this).symm
            subst hk2k
            have hne : e ≠ (k2, u) := by
              rw [hq'] at he
              intro hcon
              rw [hcon] at he
              exact ((hinv.qNodup.mem_erase_iff).1 he).1 rfl
            rcases Nat.lt_or_ge k2 e.1 with h | h
            · exact h
            · exfalso
              have he1 : e.1 = k2 := Nat.le_antisymm h hk2e
              apply hne
              have : e = (e.1, e.2) := rfl
              rw [this, he1, hev]
          · intro v k' hvu hk'
            rcases hinv.main v k' hk' with hl | ⟨hkL, hrel⟩
            · left
              rw [hq']
              apply (List.mem_erase_of_ne ?_).2 hl
              intro he
              exact hvu (congrArg Prod.snd he)
            · exact Or.inr ⟨Nat.le_trans hkL hLd, hrel⟩
        have huwalk : PF.walkTo net s k u := hinv.sound u k hk
        obtain ⟨dist', prev', q'', hfold, hinv'', hnbs'', hmono, hqf, hlen⟩ :=
          relaxAll_spec net hwf s u k huwalk (PF.adjP net u) (fun _ h => h)
            dist prev q' hmid
        have hinv2 : PF.LoopInv net s dist' prev' q'' k := by
          refine ⟨hinv''.keysD, hinv''.keysP, hinv''.distS, hinv''.qDist,
            hinv''.qLB, hinv''.qNodup, ?_, hinv''.sound, hinv''.prevOk⟩
          intro v k' hk'
          by_cases hvu : v = u
          · subst hvu
            rw [hinv''.distU] at hk'
            have : k' = k := by
              have := Option.some_inj.1 hk'
              exact (Option.some_inj.1 this).symm
            subst this
            right
            refine ⟨Nat.le_refl _, ?_⟩
            intro nb hnb
            obtain ⟨m, hm, hm'⟩ := hnbs'' nb hnb
            exact ⟨m, hm, hm'⟩
          · exact hinv''.main v k' hvu hk'
        have hphi2 : PF.phi net dist' q'' < fuel := by
          have hkeys' : PF.keysOf dist' = PF.keysOf dist := by
            rw [hinv''.keysD, hinv.keysD]
          have hsettledu : PF.settledB dist' q'' u = true :=
            (settledB_iff dist' q'' u).2
              ⟨k, hinv''.distU, fun e he hev => hinv''.qU e he hev⟩
          have hunsettledu : PF.settledB dist q u = false := by
            apply Bool.eq_false_iff.2
            intro hcon
            obtain ⟨kv, hkv, hents⟩ := (settledB_iff dist q u).1 hcon
            rw [hk] at hkv
            have : kv = k := by
              have := Option.some_inj.1 hkv
              exact (Option.some_inj.1 this).symm
            subst this
            exact Nat.lt_irrefl _ (hents (kv, u) hmem rfl)
          have hS : ((PF.keysOf dist).map
                (fun v => if PF.settledB dist' q'' v then 0
                  else (PF.adjP net v).length)).sum
                + (PF.adjP net u).length
              ≤ ((PF.keysOf dist).map
                (fun v => if PF.settledB dist q v then 0
                  else (PF.adjP net v).length)).sum := by
            have hnd : (PF.keysOf dist).Nodup := by
              rw [hinv.keysD]
              exact keysListP_nodup hwf.nodup s
            have := @map_sum_special (PF.keysOf dist) hnd u hukeys
              (fun v => if PF.settledB dist q v then 0
                else (PF.adjP net v).length)
              (fun v => if PF.settledB dist' q'' v then 0
                else (PF.adjP net v).length)
              ?_ (by simp [hsettledu])
            · simp only [hunsettledu, Bool.false_eq_true, if_false] at this
              simpa using this
            · intro v _ hvne
              show (if PF.settledB dist' q'' v = true then 0
                  else (PF.adjP net v).length)
                ≤ (if PF.settledB dist q v = true then 0
                  else (PF.adjP net v).length)
              by_cases hs : PF.settledB dist q v = true
              · obtain ⟨kv, hkv, hents⟩ := (settledB_iff dist q v).1 hs
                have hkvL : kv ≤ k := by
                  rcases hinv.main v kv hkv with hl | ⟨hkL, _⟩
                  · exact absurd (hents (kv, v) hl rfl) (Nat.lt_irrefl _)
                  · exact Nat.le_trans hkL hLd
                have hkv' : dist'.lookup v = some (some kv) := by
                  rw [hmono v kv hkv (Nat.le_trans hkvL (Nat.le_succ _))]
                  exact hkv
                have hs' : PF.settledB dist' q'' v = true := by
                  apply (settledB_iff dist' q'' v).2
                  refine ⟨kv, hkv', ?_⟩
                  intro e he hev
                  rcases hqf e he with he' | he'
                  · exact hents e (hq'sub e he') hev
                  · rw [he']
                    exact Nat.lt_succ_of_le hkvL
                rw [if_pos hs', if_pos hs]
              · rw [if_neg hs]
                split
                · exact Nat.zero_le _
                · exact Nat.le_refl _
          unfold PF.phi at hphi ⊢
          rw [hkeys']
          omega
        obtain ⟨distf, prevf, hloop, hfin⟩ := ih dist' prev' q'' k hinv2 hphi2
        refine ⟨distf, prevf, ?_, hfin⟩
        have hk2 : List.lookup u dist = some (some k) := hk
        rw [loop_step, hpop]
        simp only [hk2, hgt, Bool.false_eq_true, if_false, hfold]
        exact hloop

/-! ## Initial state and total fuel -/

theorem adjP_of_mem {net : PF.Net} (hnd : (PF.idsP net).Nodup) :
    ∀ n ∈ net, PF.adjP net n.eui64 = n.neighbors := by
  induction net with
  | nil =>
    intro n hn
    simp at hn
  | cons m rest ih =>
    intro n hn
    have hcons : PF.idsP (m :: rest) = m.eui64 :: PF.idsP rest := rfl
    rw [hcons] at hnd
    obtain ⟨hm, hrest⟩ := List.nodup_cons.1 hnd
    rcases List.mem_cons.1 hn with rfl | hn'
    · unfold PF.adjP
      rw [List.find?_cons_of_pos _ (by simp)]
      rfl
    · have hne : m.eui64 ≠ n.eui64 := by
        intro he
        exact hm (he ▸ List.mem_map_of_mem _ hn')
      have hstep : PF.adjP (m :: rest) n.eui64 = PF.adjP rest n.eui64 := by
        unfold PF.adjP
        rw [List.find?_cons_of_neg _ (by simp [hne])]
      rw [hstep]
      exact ih hrest n hn'

theorem adjP_not_mem {net : PF.Net} {x : String} (hx : x ∉ PF.idsP net) :
    PF.adjP net x = [] := by
  unfold PF.adjP
  rw [List.find?_eq_none.2 ?_]
  · rfl
  · intro n hn
    simp only [beq_iff_eq]
    intro he
    exact hx (he ▸ List.mem_map_of_mem _ hn)

theorem sum_adjP_le {net : PF.Net} (hwf : PF.WFNet net) (s : String) :
    ((PF.keysListP net s).map (fun v => (PF.adjP net v).length)).sum
      ≤ (net.map (fun n => n.neighbors.length)).sum := by
  have hids : ((PF.idsP net).map (fun v => (PF.adjP net v).length)).sum
      = (net.map (fun n => n.neighbors.length)).sum := by
    unfold PF.idsP
    rw [List.map_map]
    congr 1
    apply List.map_congr_left
    intro n hn
    simp [Function.comp, adjP_of_mem hwf.nodup n hn]
  unfold PF.keysListP
  by_cases hs : s ∈ PF.idsP net
  · rw [if_pos hs, hids]
  · rw [if_neg hs, List.map_append, List.sum_append]
    have h0 : ((([s] : List String)).map
        (fun v => (PF.adjP net v).length)).sum = 0 := by
      simp [adjP_not_mem hs]
    rw [h0, Nat.add_zero, hids]

theorem init_dist_lookup (net : PF.Net) (hnd : (PF.idsP net).Nodup)
    (s x : String) :
    (upd (PF.initDist net) s (some 0)).lookup x
      = if x = s then some (some 0)
        else if x ∈ PF.idsP net then some none else none := by
  obtain ⟨_, hdl⟩ := initDist_spec net hnd
  by_cases hx : x = s
  · subst hx
    rw [lookup_upd_self, if_pos rfl]
  · rw [lookup_upd_ne _ _ _ _ hx, hdl x, if_neg hx]

theorem init_loopInv (net : PF.Net) (hwf : PF.WFNet net) (s : String) :
    PF.LoopInv net s (upd (PF.initDist net) s (some 0)) (PF.initPrev net)
      [(0, s)] 0 := by
  obtain ⟨hdk, _⟩ := initDist_spec net hwf.nodup
  obtain ⟨hpk, hpl⟩ := initPrev_spec net hwf.nodup
  have hd := init_dist_lookup net hwf.nodup s
  have hds : (upd (PF.initDist net) s (some 0)).lookup s = some (some 0) := by
    rw [hd s, if_pos rfl]
  have honly : ∀ x k,
      (upd (PF.initDist net) s (some 0)).lookup x = some (some k) →
      x = s ∧ k = 0 := by
    intro x k hx
    rw [hd x] at hx
    by_cases hxs : x = s
    · rw [if_pos hxs] at hx
      have : (0 : ℕ) = k := by
        have := Option.some_inj.1 hx
        exact Option.some_inj.1 this
      exact ⟨hxs, this.symm⟩
    · rw [if_neg hxs] at hx
      by_cases hxm : x ∈ PF.idsP net
      · rw [if_pos hxm] at hx
        exact Option.noConfusion (Option.some_inj.1 hx)
      · rw [if_neg hxm] at hx
        exact Option.noConfusion hx
  refine ⟨?_, hpk, hds, ?_, ?_, ?_, ?_, ?_, ?_⟩
  · rw [keysOf_upd, hdk]
    rfl
  · intro e he
    rw [List.mem_singleton.1 he]
    exact ⟨0, hds, Nat.le_refl 0⟩
  · intro e _
    exact Nat.zero_le _
  · exact List.nodup_singleton _
  · intro v k hvk
    obtain ⟨rfl, rfl⟩ := honly v k hvk
    left
    exact List.mem_singleton_self _
  · intro v k hvk
    obtain ⟨rfl, rfl⟩ := honly v k hvk
    show v = v
    rfl
  · intro v u hvu
    rw [hpl v] at hvu
    by_cases hvm : v ∈ PF.idsP net
    · rw [if_pos hvm] at hvu
      exact Option.noConfusion (Option.some_inj.1 hvu)
    · rw [if_neg hvm] at hvu
      exact Option.noConfusion hvu

theorem calculate_paths_from_source_spec (net : PF.Net) (hwf : PF.WFNet net)
    (s : String) :
    ∃ dist prev, PF.calculate_paths_from_source net s = some (dist, prev)
      ∧ PF.FinalInv net s dist prev := by
  have hinv := init_loopInv net hwf s
  have hphi : PF.phi net (upd (PF.initDist net) s (some 0)) [(0, s)]
      < PF.fuelFor net := by
    have hk : PF.keysOf (upd (PF.initDist net) s (some 0))
        = PF.keysListP net s := hinv.keysD
    have hle := @map_sum_le_pointwise (PF.keysListP net s)
      (fun v => (PF.adjP net v).length)
      (fun v => if PF.settledB (upd (PF.initDist net) s (some 0))
          [(0, s)] v then 0 else (PF.adjP net v).length)
      (fun v _ => by
        show (if PF.settledB (upd (PF.initDist net) s (some 0))
            [(0, s)] v = true then 0 else (PF.adjP net v).length)
          ≤ (PF.adjP net v).length
        split
        · exact Nat.zero_le _
        · exact Nat.le_refl _)
    have hsum := sum_adjP_le hwf s
    unfold PF.phi PF.fuelFor
    rw [hk]
    simp only [List.length_singleton]
    omega
  obtain ⟨dist, prev, hl, hf⟩ :=
    loop_spec net hwf s (PF.fuelFor net) _ _ _ 0 hinv hphi
  exact ⟨dist, prev, hl, hf⟩

/-! ## Hop distances of a finished run -/

theorem hopDist_le_walk {net : PF.Net} {s v : String} {n : ℕ}
    (h : PF.walkTo net s n v) : PF.hopDist net s v ≤ (n : ℕ∞) :=
  sInf_le ⟨n, rfl, h⟩

theorem final_dist_le_walk {net : PF.Net} {s : String} {dist : PF.DistMap}
    {prev : PF.PrevMap} (hfin : PF.FinalInv net s dist prev) :
    ∀ n v, PF.walkTo net s n v → ∃ m ≤ n, dist.lookup v = some (some m) := by
  intro n
  induction n with
  | zero =>
    intro v hv
    have hvs : v = s := hv
    subst hvs
    exact ⟨0, Nat.le_refl 0, hfin.distS⟩
  | succ n ih =>
    intro v hv
    obtain ⟨u, hu, hadj⟩ := hv
    obtain ⟨mu, hmu, hlu⟩ := ih u hu
    obtain ⟨m, hm, hlv⟩ := hfin.relaxed u mu hlu v hadj
    exact ⟨m, by omega, hlv⟩

theorem final_dist_eq_hopDist {net : PF.Net} {s : String} {dist : PF.DistMap}
    {prev : PF.PrevMap} (hfin : PF.FinalInv net s dist prev) {v : String}
    {dv : Option ℕ} (hv : dist.lookup v = some dv) :
    PF.toENat dv = PF.hopDist net s v := by
  cases dv with
  | none =>
    have hne : ∀ n, ¬ PF.walkTo net s n v := by
      intro n hw
      obtain ⟨m, _, hm⟩ := final_dist_le_walk hfin n v hw
      rw [hv] at hm
      exact Option.noConfusion (Option.some_inj.1 hm)
    show (⊤ : ℕ∞) = PF.hopDist net s v
    symm
    unfold PF.hopDist
    apply sInf_eq_top.2
    rintro a ⟨n, rfl, hw⟩
    exact (hne n hw).elim
  | some k =>
    have hw : PF.walkTo net s k v := hfin.sound v k hv
    show ((k : ℕ∞)) = PF.hopDist net s v
    apply le_antisymm
    · apply le_sInf
      rintro b ⟨n, rfl, hwn⟩
      obtain ⟨m, hmn, hm⟩ := final_dist_le_walk hfin n v hwn
      rw [hv] at hm
      have hkm : k = m := by
        have := Option.some_inj.1 hm
        exact Option.some_inj.1 this
      exact_mod_cast (by omega : k ≤ n)
    · exact hopDist_le_walk hw

/-- **C8** (amended).  `calculate_paths_from_source` on a well-formed network
returns without raising, and its distance dictionary's keys are ALL node
records (plus the source) — not just the reachable ones: every key holds the
exact hop distance when the node is reachable, and the `inf` sentinel
(`none`) when it is unreachable, rather than being absent. -/
theorem C8_single_source_distances_amended (net : PF.Net)
    (hwf : PF.WFNet net) (s : String) :
    ∃ dist prev, PF.calculate_paths_from_source net s = some (dist, prev)
      ∧ PF.keysOf dist = PF.keysListP net s
      ∧ ∀ v ∈ PF.keysListP net s, ∃ dv, dist.lookup v = some dv
          ∧ PF.toENat dv = PF.hopDist net s v := by
  obtain ⟨dist, prev, hcp, hfin⟩ := calculate_paths_from_source_spec net hwf s
  refine ⟨dist, prev, hcp, hfin.keysD, ?_⟩
  intro v hv
  have hsome : (dist.lookup v).isSome :=
    (lookup_isSome_iff_keys dist v).2 (hfin.keysD ▸ hv)
  obtain ⟨dv, hdv⟩ := Option.isSome_iff_exists.1 hsome
  exact ⟨dv, hdv, final_dist_eq_hopDist hfin hdv⟩

/-- Witness for `C8_single_source_distances_amended` on the concrete
two-record network of the counterexample. -/
theorem C8_single_source_distances_amended_witness :
    PF.WFNet [⟨"A", []⟩, ⟨"B", []⟩]
    ∧ (∃ dist prev,
        PF.calculate_paths_from_source [⟨"A", []⟩, ⟨"B", []⟩] "A"
          = some (dist, prev)
        ∧ PF.keysOf dist = PF.keysListP [⟨"A", []⟩, ⟨"B", []⟩] "A"
        ∧ ∀ v ∈ PF.keysListP [⟨"A", []⟩, ⟨"B", []⟩] "A",
            ∃ dv, dist.lookup v = some dv
              ∧ PF.toENat dv = PF.hopDist [⟨"A", []⟩, ⟨"B", []⟩] "A" v) :=
  ⟨⟨by decide, by decide⟩,
    C8_single_source_distances_amended [⟨"A", []⟩, ⟨"B", []⟩]
      ⟨by decide, by decide⟩ "A"⟩

/-! ## Path reconstruction and `find_path` error behavior -/

theorem reconstruct_step (prev : PF.PrevMap) (fuel : ℕ) (cur : String) :
    PF.reconstruct prev (fuel + 1) cur
      = match prev.lookup cur with
        | none => none
        | some none => some [cur]
        | some (some u) =>
            (PF.reconstruct prev fuel u).map (fun p => cur :: p) := rfl

theorem reconstruct_lookup_none {prev : PF.PrevMap} {cur : String}
    (h : prev.lookup cur = none) :
    ∀ fuel, PF.reconstruct prev fuel cur = none := by
  intro fuel
  cases fuel with
  | zero => rfl
  | succ fuel => rw [reconstruct_step, h]

theorem reconstruct_ok {net : PF.Net} {s : String} {dist : PF.DistMap}
    {prev : PF.PrevMap} (hfin : PF.FinalInv net s dist prev) :
    ∀ kv v, dist.lookup v = some (some kv) → (prev.lookup v).isSome →
      ∀ fuel, kv + 2 ≤ fuel → ∃ p, PF.reconstruct prev fuel v = some p := by
  intro kv
  induction kv using Nat.strong_induction_on with
  | _ kv ih =>
    intro v hv hps fuel hfuel
    obtain ⟨pv, hpv⟩ := Option.isSome_iff_exists.1 hps
    cases fuel with
    | zero => omega
    | succ fuel =>
      cases pv with
      | none =>
        exact ⟨[v], by rw [reconstruct_step, hpv]⟩
      | some u =>
        obtain ⟨ku, kv', hku, hkv', hlt, hpu⟩ := hfin.prevOk v u hpv
        have hkveq : kv' = kv := by
          rw [hv] at hkv'
          have := Option.some_inj.1 hkv'
          exact (Option.some_inj.1 this).symm
        subst hkveq
        obtain ⟨p, hp⟩ := ih ku hlt u hku hpu fuel (by omega)
        refine ⟨v :: p, ?_⟩
        rw [reconstruct_step, hpv]
        show (PF.reconstruct prev fuel u).map (fun p => v :: p) = some (v :: p)
        rw [hp]
        rfl

theorem find_path_eq (net : PF.Net) (s d : String) (dist : PF.DistMap)
    (prev : PF.PrevMap)
    (hcp : PF.calculate_paths_from_source net s = some (dist, prev)) :
    PF.find_path net s d
      = (dist.lookup d).bind (fun dd =>
          match dd with
          | none => some (none, none)
          | some k => (PF.reconstruct prev (k + 2) d).bind
              (fun p => some (some p.reverse, some k))) := by
  unfold PF.find_path
  rw [hcp]
  rfl

/-- **C5** (amended).  On a well-formed network, `find_path` raises
(`none`) exactly when the DESTINATION is not a registered node — a missing
source does not raise: with the destination registered, an unreachable pair
(in particular any pair whose source is absent) yields the `(None, inf)`
no-path result. -/
theorem C5_find_path_errors_amended (net : PF.Net) (hwf : PF.WFNet net)
    (s d : String) :
    (PF.find_path net s d = none ↔ d ∉ PF.idsP net)
    ∧ (d ∈ PF.idsP net → PF.hopDist net s d = ⊤ →
        PF.find_path net s d = some (none, none)) := by
  obtain ⟨dist, prev, hcp, hfin⟩ := calculate_paths_from_source_spec net hwf s
  have hfp := find_path_eq net s d dist prev hcp
  have hraise : d ∉ PF.idsP net → PF.find_path net s d = none := by
    intro hd
    by_cases hds : d = s
    · have hpnone : prev.lookup d = none := by
        apply Option.not_isSome_iff_eq_none.1
        rw [lookup_isSome_iff_keys, hfin.keysP]
        rw [hds]
        rw [hds] at hd
        exact hd
      have hds0 : dist.lookup d = some (some 0) := by
        rw [hds]
        exact hfin.distS
      rw [hfp, hds0]
      show (PF.reconstruct prev (0 + 2) d).bind
          (fun p => some (some p.reverse, some 0)) = none
      rw [reconstruct_lookup_none hpnone]
      rfl
    · have hdk : dist.lookup d = none := by
        apply Option.not_isSome_iff_eq_none.1
        rw [lookup_isSome_iff_keys, hfin.keysD]
        intro hc
        rcases mem_keysListP.1 hc with h | h
        · exact hd h
        · exact hds h
      rw [hfp, hdk]
      rfl
  have hsomeOf : d ∈ PF.idsP net → (dist.lookup d).isSome := by
    intro hd
    rw [lookup_isSome_iff_keys, hfin.keysD]
    exact mem_keysListP.2 (Or.inl hd)
  have hok : d ∈ PF.idsP net → ∃ r, PF.find_path net s d = some r := by
    intro hd
    obtain ⟨dv, hdv⟩ := Option.isSome_iff_exists.1 (hsomeOf hd)
    cases dv with
    | none =>
      refine ⟨(none, none), ?_⟩
      rw [hfp, hdv]
      rfl
    | some k =>
      have hps : (prev.lookup d).isSome := by
        rw [lookup_isSome_iff_keys, hfin.keysP]
        exact hd
      obtain ⟨p, hp⟩ := reconstruct_ok hfin k d hdv hps (k + 2) (Nat.le_refl _)
      refine ⟨(some p.reverse, some k), ?_⟩
      rw [hfp, hdv]
      show (PF.reconstruct prev (k + 2) d).bind
          (fun p => some (some p.reverse, some k))
        = some (some p.reverse, some k)
      rw [hp]
      rfl
  refine ⟨⟨?_, hraise⟩, ?_⟩
  · intro hnone
    by_contra hd
    obtain ⟨r, hr⟩ := hok hd
    rw [hr] at hnone
    exact Option.noConfusion hnone
  · intro hd htop
    obtain ⟨dv, hdv⟩ := Option.isSome_iff_exists.1 (hsomeOf hd)
    have hdv' := final_dist_eq_hopDist hfin hdv
    rw [htop] at hdv'
    cases dv with
    | none =>
      rw [hfp, hdv]
      rfl
    | some k =>
      exfalso
      simp [PF.toENat] at hdv'

/-- Witness for `C5_find_path_errors_amended` on the one-record network of
the counterexample, with a source absent from the file. -/
theorem C5_find_path_errors_amended_witness :
    PF.WFNet [⟨"D", []⟩]
    ∧ ((PF.find_path [⟨"D", []⟩] "S" "D" = none
          ↔ "D" ∉ PF.idsP [⟨"D", []⟩])
        ∧ ("D" ∈ PF.idsP [⟨"D", []⟩]
            → PF.hopDist [⟨"D", []⟩] "S" "D" = ⊤
            → PF.find_path [⟨"D", []⟩] "S" "D" = some (none, none))) :=
  ⟨⟨by decide, by decide⟩,
    C5_find_path_errors_amended [⟨"D", []⟩] ⟨by decide, by decide⟩ "S" "D"⟩
